import Mathlib

/-!
Verification development for the bookworm reader: a shallow embedding of the
pagination engine (`src/bookworm/ui/screens/reader_screen.py`), the
translation engine (`src/bookworm/translation/engine.py`), the translation
cache (`src/bookworm/library/database.py`) and the library screen's deletion
handler (`src/bookworm/ui/screens/library_screen.py`), together with theorems
settling the specification's claims about them.

Python strings are embedded as `List Char`; the sqlite translation cache is
embedded as an association list keyed by `(sourceText, targetLang)` (the code
keys rows by `sha256(f"{text}:{lang}")[:20]`, a deterministic function of the
pair, assumed collision-free here); the remote provider is embedded as a
function from the request text to its raw response. -/

namespace Bookworm

/-- A Python string, embedded as its list of characters. -/
abbrev Str := List Char

/-- Modelled from the spec and `unicodedata.east_asian_width(ch) in ("F", "W")`:
East-Asian Wide / Fullwidth classification.  The embedding keeps the ranges of
the classification that cover the CJK scripts the program is concerned with;
every ASCII character is classified narrow, exactly as in Unicode. -/
def isWideChar (c : Char) : Bool :=
  (0x1100 ≤ c.toNat && c.toNat ≤ 0x115F) ||   -- Hangul Jamo
  (0x2E80 ≤ c.toNat && c.toNat ≤ 0x303E) ||   -- CJK Radicals .. CJK Symbols
  (0x3041 ≤ c.toNat && c.toNat ≤ 0x33FF) ||   -- Hiragana .. CJK Compatibility
  (0x3400 ≤ c.toNat && c.toNat ≤ 0x4DBF) ||   -- CJK Extension A
  (0x4E00 ≤ c.toNat && c.toNat ≤ 0x9FFF) ||   -- CJK Unified Ideographs
  (0xA000 ≤ c.toNat && c.toNat ≤ 0xA4CF) ||   -- Yi
  (0xAC00 ≤ c.toNat && c.toNat ≤ 0xD7A3) ||   -- Hangul Syllables
  (0xF900 ≤ c.toNat && c.toNat ≤ 0xFAFF) ||   -- CJK Compatibility Ideographs
  (0xFE30 ≤ c.toNat && c.toNat ≤ 0xFE4F) ||   -- CJK Compatibility Forms
  (0xFF00 ≤ c.toNat && c.toNat ≤ 0xFF60) ||   -- Fullwidth Forms
  (0xFFE0 ≤ c.toNat && c.toNat ≤ 0xFFE6)      -- Fullwidth Signs

/-- The display width of one character: 2 for a wide/fullwidth glyph, 1
otherwise (the summand of `_display_width`, also used in `_wrap_cjk`). -/
def charWidth (c : Char) : Nat :=
  if isWideChar c then 2 else 1

/-- `_display_width` from `reader_screen.py`: terminal columns of a string,
counting wide glyphs as 2 and everything else as 1. -/
def displayWidth (t : Str) : Nat :=
  (t.map charWidth).sum

/-- Modelled from Python `str.isspace` restricted to the whitespace the
program's inputs contain (`str.strip` strips exactly these). -/
def isPySpace (c : Char) : Bool :=
  c = ' ' || c = '\t' || c = '\n' || c = '\r' || c = '\x0b' || c = '\x0c'

/-- Modelled from Python `str.strip()`: remove leading and trailing
whitespace. -/
def pyStrip (t : Str) : Str :=
  ((t.dropWhile isPySpace).reverse.dropWhile isPySpace).reverse

/-- Python `str.isascii()` for one character. -/
def isAsciiChar (c : Char) : Bool :=
  c.toNat < 128

/-- The scanning loop behind `splitWords`, collecting the current word in
reverse in `acc`: whitespace finishes the collected word (if any), any other
character extends it. -/
def splitWordsAux : Str → Str → List Str
  | [], acc => if acc.isEmpty then [] else [acc.reverse]
  | c :: rest, acc =>
    if isPySpace c then
      if acc.isEmpty then splitWordsAux rest []
      else acc.reverse :: splitWordsAux rest []
    else splitWordsAux rest (c :: acc)

/-- Modelled from Python `str.split()` (no separator): the maximal
whitespace-separated words of a string, used by `textwrap`'s chunking. -/
def splitWords (t : Str) : List Str :=
  splitWordsAux t []

/-- Modelled from the greedy fill of Python `textwrap.wrap` (defaults:
`drop_whitespace=True`, `break_long_words=True`): pack words onto lines
separated by single spaces, breaking a word that alone exceeds the width into
width-sized pieces.  (Runs of whitespace are collapsed to one space; the
hyphen-splitting refinement of `textwrap` is not modelled — neither affects
the line-width bound or the line counts the claims use.)  `width = 0`, for
which `textwrap` raises `ValueError`, returns no lines. -/
def fillWords (width : Nat) : List Str → Str → List Str
  | [], cur => if cur.isEmpty then [] else [cur]
  | w :: ws, cur =>
    if cur.isEmpty then
      if w.length ≤ width then fillWords width ws w
      else if _h0 : width = 0 then []
      else w.take width :: fillWords width (w.drop width :: ws) []
    else if cur.length + 1 + w.length ≤ width then
      fillWords width ws (cur ++ ' ' :: w)
    else
      cur :: fillWords width (w :: ws) []
termination_by ws cur => ((ws.map fun w => w.length + 1).sum, cur.length + 1)
decreasing_by
  all_goals simp only [List.map_cons, List.sum_cons, List.length_drop]
  all_goals first
    | exact Prod.Lex.left _ _ (by omega)
    | exact Prod.Lex.right _ (by
        simp only [List.isEmpty_iff] at *
        cases cur with
        | nil => simp_all
        | cons a l => simp)

/-- Modelled from Python `textwrap.wrap(text, width=width)` as used by the
ASCII fast path of `_wrap_cjk`. -/
def textwrapWrap (text : Str) (width : Nat) : List Str :=
  fillWords width (splitWords text) []

/-- The character loop of `_wrap_cjk` (the CJK / mixed path): accumulate
characters into `current` tracking its running display width `currentW`,
emitting a line once the next glyph would overflow `width`, and skipping a
single space that would otherwise lead the new line. -/
def wrapLoop (width : Nat) : Str → Str → Nat → List Str
  | [], current, _ => if current.isEmpty then [] else [current]
  | ch :: rest, current, currentW =>
    let cw := charWidth ch
    if currentW + cw > width ∧ ¬current.isEmpty then
      if ch = ' ' then current :: wrapLoop width rest [] 0
      else current :: wrapLoop width rest [ch] cw
    else
      wrapLoop width rest (current ++ [ch]) (currentW + cw)

/-- `_wrap_cjk` from `reader_screen.py`: wrap text to a display width.
Whitespace-only text yields one empty line; pure-ASCII text goes through
`textwrap.wrap` (with the `or [""]` fallback); otherwise the display-width
loop runs. -/
def wrapCjk (text : Str) (width : Nat) : List Str :=
  if pyStrip text = [] then [[]]
  else if text.all isAsciiChar then
    match textwrapWrap text width with
    | [] => [[]]
    | l => l
  else
    match wrapLoop width text [] 0 with
    | [] => [[]]
    | l => l

/-- The translation cache (`translation_cache` table of `database.py`
together with `TranslationEngine._make_hash`): rows keyed by
`sha256(f"{text}:{lang}")[:20]`, embedded as an association list keyed by the
`(sourceText, targetLang)` pair the hash is computed from, holding the
`translated_text` column. -/
abbrev Cache := List ((Str × Str) × Str)

/-- `Database.get_cached_translation`: the `translated_text` of the row with
the given key, if present. -/
def cacheLookup (cache : Cache) (text lang : Str) : Option Str :=
  match cache.find? (fun e => e.1 = (text, lang)) with
  | some e => some e.2
  | none => none

/-- `Database.cache_translation`: `INSERT OR REPLACE` of a row under the key
of `(text, lang)`. -/
def cacheStore (cache : Cache) (text lang trans : Str) : Cache :=
  ((text, lang), trans) :: cache.filter (fun e => ¬e.1 = (text, lang))

/-- `TranslationEngine.get_cached`: `""` for whitespace-only text without a
cache lookup, otherwise the cached translation if any. -/
def getCached (cache : Cache) (lang text : Str) : Option Str :=
  if pyStrip text = [] then some []
  else cacheLookup cache text lang

/-- `TranslationEngine.is_translated`: whitespace-only text counts as
translated, otherwise a cache row must exist. -/
def isTranslated (cache : Cache) (lang text : Str) : Bool :=
  if pyStrip text = [] then true
  else (cacheLookup cache text lang).isSome

/-- `TranslationEngine.count_translated`. -/
def countTranslated (cache : Cache) (lang : Str) (paragraphs : List Str) : Nat :=
  (paragraphs.filter (fun p => isTranslated cache lang p)).length

/-- A chapter of the normalized document model (`models.Chapter`): a title and
the ordered paragraph strings. -/
structure Chapter where
  title : Str
  paragraphs : List Str
deriving DecidableEq

/-- A parsed book (`models.BookContent`): the ordered chapters. -/
structure BookContent where
  chapters : List Chapter
deriving DecidableEq

/-- The prefix `"  ▸ "` that `_wrap_chapter` (and `_do_export`) put before a
cached translation. -/
def transMarker : Str := [' ', ' ', '▸', ' ']

/-- The body of the `enumerate` loop of `_wrap_chapter`, recursing over the
paragraphs with their index `i`: each paragraph's wrapped lines, then (in
translate mode, when a non-empty cached translation exists — Python's
`if cached:` truthiness) the wrapped translation lines, then `lineSpacing`
blank lines between paragraphs (never after the last); every line is
attributed to paragraph `i` in the parallel `line_to_para` list. -/
def wrapChapterAux (width lineSpacing : Nat) (translateMode : Bool)
    (cache : Cache) (lang : Str) : Nat → List Str → List Str × List Nat
  | _, [] => ([], [])
  | i, p :: rest =>
    let wrapped := wrapCjk p width
    let transLines :=
      if translateMode then
        match getCached cache lang p with
        | some c => if c = [] then [] else wrapCjk (transMarker ++ c) width
        | none => []
      else []
    let spacingLines : List Str :=
      if rest = [] then [] else List.replicate lineSpacing []
    let (ls, ltp) := wrapChapterAux width lineSpacing translateMode cache lang (i + 1) rest
    (wrapped ++ transLines ++ spacingLines ++ ls,
     List.replicate wrapped.length i ++ List.replicate transLines.length i ++
       List.replicate spacingLines.length i ++ ltp)

/-- `_wrap_chapter`: all display lines of a chapter at a given column width
plus the parallel line-index → paragraph-index map. -/
def wrapChapter (chapter : Chapter) (width lineSpacing : Nat)
    (translateMode : Bool) (cache : Cache) (lang : Str) : List Str × List Nat :=
  wrapChapterAux width lineSpacing translateMode cache lang 0 chapter.paragraphs

/-- The chunking loop of `_reflow` (`for i in range(0, len(all_lines),
page_height)`), recursing over the lines and the parallel `line_to_para` map:
each page is the next `ph` lines; its paragraph range is
`(line_to_para[i], line_to_para[min(i + ph - 1, len - 1)])`, i.e. the first
and last entries of the corresponding `line_to_para` chunk (`(0, 0)` when the
map is exhausted, mirroring the bounds guard in the code).  Only called with
`ph = page_height ≥ 3`; for `ph ≤ 1` the recursion chunks one line at a
time.  The loop consumes at least one line per iteration, so the recursion is
paced by a fuel argument seeded with the number of lines, which therefore
never runs out. -/
def chunkPagesGo (ph : Nat) : Nat → List Str → List Nat → List (List Str) × List (Nat × Nat)
  | _, [], _ => ([], [])
  | 0, _ :: _, _ => ([], [])  -- fuel exhausted; unreachable from `chunkPagesAux`
  | fuel + 1, l :: ls, ltp =>
    let page := l :: ls.take (ph - 1)
    let range := (ltp.headD 0, (ltp.take ph).getLastD 0)
    let (ps, rs) := chunkPagesGo ph fuel (ls.drop (ph - 1)) (ltp.drop ph)
    (page :: ps, range :: rs)

def chunkPagesAux (ph : Nat) (lines : List Str) (ltp : List Nat) :
    List (List Str) × List (Nat × Nat) :=
  chunkPagesGo ph lines.length lines ltp

/-- `_get_content_dimensions`: the content widget's inner width and height
(the width already has the 4-column padding subtracted), replaced by the
fallback `(72, 20)` when degenerate (`w < 10 or h < 3`). -/
def getContentDimensions (w h : Nat) : Nat × Nat :=
  if w < 10 ∨ h < 3 then (72, 20) else (w, h)

/-- The column width `_reflow` (and `_render_page`) wrap at:
`max(20, (content_w - 3) // 2)` in dual-page mode, `max(20, content_w)`
otherwise.  (`content_w ≥ 10`, so the Python floor division never sees a
negative operand.) -/
def effectivePageWidth (dualMode : Bool) (contentW : Nat) : Nat :=
  if dualMode then max 20 ((contentW - 3) / 2) else max 20 contentW

/-- `_reflow`: wrap the current chapter (none ⇒ the `(empty)` placeholder
page) at the effective width and chunk the resulting lines into pages of
`page_height = max(3, content_h)` lines with their paragraph ranges; an empty
line list again yields the placeholder page. -/
def reflow (chapter : Option Chapter) (rawW rawH lineSpacing : Nat)
    (dualMode translateMode : Bool) (cache : Cache) (lang : Str) :
    List (List Str) × List (Nat × Nat) :=
  match chapter with
  | none => ([["(empty)".data]], [(0, 0)])
  | some ch =>
    let (contentW, contentH) := getContentDimensions rawW rawH
    let pageWidth := effectivePageWidth dualMode contentW
    let pageHeight := max 3 contentH
    let (allLines, lineToPara) :=
      wrapChapter ch pageWidth lineSpacing translateMode cache lang
    let (pages, ranges) := chunkPagesAux pageHeight allLines lineToPara
    if pages = [] then ([["(empty)".data]], [(0, 0)]) else (pages, ranges)

/-- The single-page branch of `_render_page`: the current page's lines padded
with blank lines up to the content height. -/
def renderPageSingle (page : List Str) (contentH : Nat) : List Str :=
  page ++ List.replicate (contentH - page.length) []

/-- `BATCH_SEPARATOR` from `engine.py`: the reserved sequence joining the
paragraphs of one batched request. -/
def batchSeparator : Str := ['\n', '-', '-', '-', '\n']

/-- `BATCH_MAX_PARAGRAPHS` from `engine.py`. -/
def batchMaxParagraphs : Nat := 20

/-- Python `result.split("---")` as used by `_call_api_batch`: split on every
non-overlapping occurrence of three dashes, left to right. -/
def splitDashes : Str → List Str
  | [] => [[]]
  | '-' :: '-' :: '-' :: rest => [] :: splitDashes rest
  | c :: rest =>
    match splitDashes rest with
    | h :: t => (c :: h) :: t
    | [] => [[c]]

/-- Whether a string contains three consecutive dashes, i.e. an occurrence of
the `"---"` that `_call_api_batch` splits on. -/
def hasTripleDash : Str → Bool
  | [] => false
  | c :: rest => (c = '-' && rest.take 2 = ['-', '-']) || hasTripleDash rest

/-- Python `sep.join(texts)`. -/
def joinSep (sep : Str) : List Str → Str
  | [] => []
  | [t] => t
  | t :: ts => t ++ sep ++ joinSep sep ts

/-- `_call_api_batch` with the remote provider embedded as a function from
the request text to its raw response: join the texts with `BATCH_SEPARATOR`
into one combined request, split the response on `"---"`, strip each part,
pad with `""` up to the requested count, truncate to the requested count. -/
def callApiBatch (provider : Str → Str) (texts : List Str) : List Str :=
  let combined := joinSep batchSeparator texts
  let parts := (splitDashes (provider combined)).map pyStrip
  let parts :=
    if parts.length < texts.length then
      parts ++ List.replicate (texts.length - parts.length) []
    else parts
  parts.take texts.length

/-- The classification loop of `translate_batch` over `enumerate(paragraphs)`
starting at index `i`: per paragraph either an immediate result
(whitespace-only ⇒ `""`, cache hit ⇒ the cached text) or a recorded miss
(its index and text, in input order). -/
def classifyParas (cache : Cache) (lang : Str) :
    Nat → List Str → List (Option Str) × List Nat × List Str
  | _, [] => ([], [], [])
  | i, p :: rest =>
    let (rs, idxs, txts) := classifyParas cache lang (i + 1) rest
    if pyStrip p = [] then (some [] :: rs, idxs, txts)
    else
      match getCached cache lang p with
      | some c => (some c :: rs, idxs, txts)
      | none => (none :: rs, i :: idxs, p :: txts)

/-- The write-back loop of `translate_batch` (`for j, idx in
enumerate(uncached_indices)` with running counter `j`): take the `j`-th
translated part (`""` past the end), store it in the results slot `idx` and
upsert it into the cache keyed by `paragraphs[idx]`. -/
def writeBack (lang : Str) (paras : List Str) (parts : List Str) :
    List Nat → Nat → List (Option Str) → Cache → List (Option Str) × Cache
  | [], _, results, cache => (results, cache)
  | idx :: more, j, results, cache =>
    let trans := parts.getD j []
    writeBack lang paras parts more (j + 1) (results.set idx (some trans))
      (cacheStore cache (paras.getD idx []) lang trans)

/-- `translate_batch` from `engine.py`: resolve blanks and cache hits, send
the misses as one batched call to the provider, write the returned parts back
into the results and the cache, and return one (possibly empty) translation
per input paragraph together with the updated cache. -/
def translateBatch (cache : Cache) (lang : Str) (provider : Str → Str)
    (paras : List Str) : List Str × Cache :=
  let (results, idxs, txts) := classifyParas cache lang 0 paras
  if txts = [] then (results.map (fun r => r.getD []), cache)
  else
    let parts := callApiBatch provider txts
    let (results, cache) :=
      writeBack lang paras parts idxs 0 results cache
    (results.map (fun r => r.getD []), cache)

/-- The mutable state of one `translate_all` run: the results list, the
`done` counter, the pending batch (`batch_indices` zipped with
`batch_texts`), the cache, the number of API calls made so far, the chunks
dispatched so far (each tagged with the loop index at which it was
dispatched), and the `(done, total)` progress reports issued. -/
structure TAState where
  results : List Str
  done : Nat
  batch : List (Nat × Str)
  cache : Cache
  calls : Nat
  dispatched : List (Nat × List (Nat × Str))
  progress : List (Nat × Nat)
deriving DecidableEq

/-- The write-back loop shared by both dispatch sites of `translate_all`:
for the `j`-th batch entry `(idx, txt)` take the `j`-th translated part
(`""` past the end), set `results[idx]` and upsert the cache row keyed by
`paragraphs[idx]` (which is `txt`: the two lists are appended in step). -/
def taWrite (lang : Str) (parts : List Str) :
    List (Nat × Str) → Nat → List Str → Cache → List Str × Cache
  | [], _, results, cache => (results, cache)
  | (idx, txt) :: more, j, results, cache =>
    let trans := parts.getD j []
    taWrite lang parts more (j + 1) (results.set idx trans)
      (cacheStore cache txt lang trans)

/-- One chunk dispatch of `translate_all` at loop index `m`: call the provider
(the `calls`-th request goes to `provider calls`), write the parts back, bump
`done`, report progress, clear the batch, and record the chunk. -/
def dispatchBatch (lang : Str) (provider : Nat → Str → Str) (total : Nat)
    (st : TAState) (m : Nat) : TAState :=
  let parts := callApiBatch (provider st.calls) (st.batch.map Prod.snd)
  let (results, cache) := taWrite lang parts st.batch 0 st.results st.cache
  let done := st.done + st.batch.length
  { results := results, done := done, batch := [], cache := cache,
    calls := st.calls + 1, dispatched := st.dispatched ++ [(m, st.batch)],
    progress := st.progress ++ [(done, total)] }

/-- The main loop of `translate_all` over `enumerate(paragraphs)`:
`flag i` is the value of the advisory `self._cancel` flag as read at the top
of iteration `i` (a `true` read breaks the loop, returning the exit index);
an already-resolved paragraph (`if results[i]:`, Python truthiness) is
skipped; a whitespace-only one resolves to `""`; otherwise the paragraph
joins the batch, which is dispatched once it reaches
`BATCH_MAX_PARAGRAPHS`. -/
def taLoop (lang : Str) (provider : Nat → Str → Str) (flag : Nat → Bool)
    (total : Nat) : List Str → Nat → TAState → Nat × TAState
  | [], i, st => (i, st)
  | p :: rest, i, st =>
    if flag i then (i, st)
    else if ¬st.results.getD i [] = [] then taLoop lang provider flag total rest (i + 1) st
    else if pyStrip p = [] then
      taLoop lang provider flag total rest (i + 1)
        { st with results := st.results.set i [], done := st.done + 1 }
    else
      let st1 := { st with batch := st.batch ++ [(i, p)] }
      if batchMaxParagraphs ≤ st1.batch.length then
        taLoop lang provider flag total rest (i + 1) (dispatchBatch lang provider total st1 i)
      else
        taLoop lang provider flag total rest (i + 1) st1

/-- `translate_all` from `engine.py`: resolve every already-cached paragraph
first (one progress report), run the batching loop, and dispatch the trailing
partial batch only if it is non-empty and the cancellation flag — read once
more after the loop, at the exit index — is still unset.  Returns the
results, the final cache, and the dispatched chunks. -/
def translateAll (cache : Cache) (lang : Str) (provider : Nat → Str → Str)
    (flag : Nat → Bool) (paras : List Str) :
    List Str × Cache × List (Nat × List (Nat × Str)) :=
  let results0 := paras.map (fun p => (getCached cache lang p).getD [])
  let done0 := (paras.filter (fun p => (getCached cache lang p).isSome)).length
  let st0 : TAState :=
    ⟨results0, done0, [], cache, 0, [], [(done0, paras.length)]⟩
  let (e, st) := taLoop lang provider flag paras.length paras 0 st0
  if st.batch ≠ [] ∧ flag e = false then
    let st1 := dispatchBatch lang provider paras.length st e
    (st1.results, st1.cache, st1.dispatched)
  else (st.results, st.cache, st.dispatched)

/-- The invariant the `translate_all` loop maintains at loop index `i`:
every chunk was dispatched at a moment (its tag `m`) when the cancellation
flag read `false`, before the current index, and all its entries were
enqueued at indices `≤ m` where the flag also read `false`; the pending
batch likewise holds only entries enqueued under a `false` flag before `i`;
and every paragraph of every dispatched chunk has a cache row. -/
def TADispatchInv (lang : Str) (flag : Nat → Bool) (st : TAState) (i : Nat) : Prop :=
  (∀ mc ∈ st.dispatched, flag mc.1 = false ∧ mc.1 < i ∧
     ∀ jt ∈ mc.2, jt.1 ≤ mc.1 ∧ flag jt.1 = false) ∧
  (∀ jt ∈ st.batch, jt.1 < i ∧ flag jt.1 = false) ∧
  (∀ mc ∈ st.dispatched, ∀ jt ∈ mc.2,
     (cacheLookup st.cache jt.2 lang).isSome = true)

/-- The outcome of `action_export_bilingual`: no content loaded (silent
return), the incompleteness notification carrying `(done, total)` with
nothing written, or the exported document's parts. -/
inductive ExportOutcome where
  | notLoaded
  | incomplete (done total : Nat)
  | exported (parts : List Str)
deriving DecidableEq

/-- The `parts` list built by `_do_export`: per chapter a `=`-banner, the
title, a banner with a trailing newline, then per paragraph the original
text, the `"  ▸ "`-prefixed cached translation when non-empty (Python's
`if cached:` truthiness), and a blank separator.  The written file is
`"\n".join(parts)`. -/
def doExportParts (content : BookContent) (cache : Cache) (lang : Str) : List Str :=
  content.chapters.flatMap (fun ch =>
    [List.replicate 60 '=', ch.title, List.replicate 60 '=' ++ ['\n']] ++
    ch.paragraphs.flatMap (fun para =>
      [para] ++
      (match getCached cache lang para with
       | some c => if c = [] then [] else [transMarker ++ c]
       | none => []) ++
      [[]]))

/-- `action_export_bilingual`: count the translated paragraphs over the whole
book; below the total it notifies incompleteness and writes nothing,
otherwise `_do_export` runs. -/
def actionExportBilingual (content : Option BookContent) (cache : Cache)
    (lang : Str) : ExportOutcome :=
  match content with
  | none => .notLoaded
  | some ct =>
    let allParas := ct.chapters.flatMap (fun ch => ch.paragraphs)
    let total := allParas.length
    let done := countTranslated cache lang allParas
    if done < total then .incomplete done total
    else .exported (doExportParts ct cache lang)

/-- The externally visible actions `_on_delete_confirmed` can perform, in
order. -/
inductive DeleteEffect where
  | removeBook
  | refreshBooks
  | notifyRemoved
deriving DecidableEq

/-- `_on_delete_confirmed` from `library_screen.py` (a `None` confirmation is
embedded as `false`, as `not confirmed` treats them alike).  In the source,
every statement after the early `return` — the `get_book`/`remove_book`
calls, the list refresh and the notification — is indented *inside* the
`if not confirmed:` block, after the `return`, so no path ever executes
them: the function performs no effect for any input. -/
def onDeleteConfirmed (confirmed : Bool) : List DeleteEffect :=
  if ¬confirmed then
    []  -- the `return`; the remaining statements of the block are unreachable
  else
    []  -- no statement exists outside the `if not confirmed:` block

/-! ## Basic lemmas -/

theorem classifyParas_results_length (cache : Cache) (lang : Str) :
    ∀ (i : Nat) (ps : List Str),
      ((classifyParas cache lang i ps).1).length = ps.length := by
  intro i ps
  induction ps generalizing i with
  | nil => rfl
  | cons p rest ih =>
    simp only [classifyParas]
    split
    · simp [ih]
    · split <;> simp [ih]

theorem writeBack_results_length (lang : Str) (paras parts : List Str) :
    ∀ (idxs : List Nat) (j : Nat) (rs : List (Option Str)) (c : Cache),
      ((writeBack lang paras parts idxs j rs c).1).length = rs.length := by
  intro idxs
  induction idxs with
  | nil => intro j rs c; rfl
  | cons idx more ih =>
    intro j rs c
    simp only [writeBack]
    rw [ih]
    simp

theorem callApiBatch_length (provider : Str → Str) (texts : List Str) :
    (callApiBatch provider texts).length = texts.length := by
  simp only [callApiBatch]
  split
  · simp_all; omega
  · simp_all

theorem isWideChar_of_ascii {c : Char} (h : isAsciiChar c = true) :
    isWideChar c = false := by
  simp only [isAsciiChar, decide_eq_true_eq] at h
  simp only [isWideChar, Bool.or_eq_false_iff, Bool.and_eq_false_iff,
    decide_eq_false_iff_not, not_le]
  omega

theorem charWidth_of_ascii {c : Char} (h : isAsciiChar c = true) :
    charWidth c = 1 := by
  simp [charWidth, isWideChar_of_ascii h]

theorem charWidth_le_two (c : Char) : charWidth c ≤ 2 := by
  simp only [charWidth]
  split <;> omega

theorem one_le_charWidth (c : Char) : 1 ≤ charWidth c := by
  simp only [charWidth]
  split <;> omega

theorem displayWidth_nil : displayWidth [] = 0 := rfl

theorem displayWidth_append (s t : Str) :
    displayWidth (s ++ t) = displayWidth s + displayWidth t := by
  simp [displayWidth]

theorem displayWidth_singleton (c : Char) : displayWidth [c] = charWidth c := by
  simp [displayWidth]

theorem displayWidth_eq_length {l : Str} (h : ∀ c ∈ l, charWidth c = 1) :
    displayWidth l = l.length := by
  induction l with
  | nil => rfl
  | cons c cs ih =>
    have hc : charWidth c = 1 := h c (by simp)
    have := ih (fun d hd => h d (by simp [hd]))
    simp only [displayWidth, List.map_cons, List.sum_cons, List.length_cons] at *
    omega

theorem splitWordsAux_chars :
    ∀ (t acc : Str), ∀ w ∈ splitWordsAux t acc, ∀ c ∈ w, c ∈ t ∨ c ∈ acc := by
  intro t
  induction t with
  | nil =>
    intro acc w hw c hc
    simp only [splitWordsAux] at hw
    split at hw
    · simp at hw
    · simp at hw
      subst hw
      simp at hc
      exact Or.inr hc
  | cons a rest ih =>
    intro acc w hw c hc
    simp only [splitWordsAux] at hw
    split at hw
    · split at hw
      · rcases ih [] w hw c hc with h | h
        · exact Or.inl (List.mem_cons_of_mem a h)
        · simp at h
      · rcases List.mem_cons.mp hw with hw | hw
        · subst hw
          simp at hc
          exact Or.inr hc
        · rcases ih [] w hw c hc with h | h
          · exact Or.inl (List.mem_cons_of_mem a h)
          · simp at h
    · rcases ih (a :: acc) w hw c hc with h | h
      · exact Or.inl (List.mem_cons_of_mem a h)
      · rcases List.mem_cons.mp h with h | h
        · exact Or.inl (by simp [h])
        · exact Or.inr h

theorem splitWords_chars {t : Str} : ∀ w ∈ splitWords t, ∀ c ∈ w, c ∈ t := by
  intro w hw c hc
  rcases splitWordsAux_chars t [] w hw c hc with h | h
  · exact h
  · simp at h

theorem fillWords_length_le (width : Nat) :
    ∀ (ws : List Str) (cur : Str), cur.length ≤ width →
      ∀ l ∈ fillWords width ws cur, l.length ≤ width := by
  intro ws cur
  induction ws, cur using fillWords.induct width with
  | case1 cur hemp =>
    intro _ l hl
    simp [fillWords.eq_1, hemp] at hl
  | case2 cur hemp =>
    intro hcur l hl
    rw [fillWords.eq_1, if_neg hemp] at hl
    simp at hl
    simpa [hl] using hcur
  | case3 w ws cur hemp hle ih =>
    intro _ l hl
    rw [fillWords.eq_2, if_pos hemp, if_pos hle] at hl
    exact ih hle l hl
  | case4 w ws cur hemp hle h0 =>
    intro _ l hl
    rw [fillWords.eq_2, if_pos hemp, if_neg hle] at hl
    simp only [h0] at hl
    simp at hl
  | case5 w ws cur hemp hle h0 ih =>
    intro _ l hl
    rw [fillWords.eq_2, if_pos hemp, if_neg hle] at hl
    rw [dif_neg h0] at hl
    rcases List.mem_cons.mp hl with hl | hl
    · subst hl
      simp [List.length_take]
    · exact ih (by simp) l hl
  | case6 w ws cur hemp hle ih =>
    intro _ l hl
    rw [fillWords.eq_2, if_neg hemp, if_pos hle] at hl
    refine ih ?_ l hl
    simp only [List.length_append, List.length_cons]
    omega
  | case7 w ws cur hemp hle ih =>
    intro hcur l hl
    rw [fillWords.eq_2, if_neg hemp, if_neg hle] at hl
    rcases List.mem_cons.mp hl with hl | hl
    · subst hl; exact hcur
    · exact ih (by simp) l hl

theorem fillWords_chars (width : Nat) :
    ∀ (ws : List Str) (cur : Str), ∀ l ∈ fillWords width ws cur, ∀ c ∈ l,
      c = ' ' ∨ c ∈ cur ∨ ∃ w ∈ ws, c ∈ w := by
  intro ws cur
  induction ws, cur using fillWords.induct width with
  | case1 cur hemp =>
    intro l hl
    simp [fillWords.eq_1, hemp] at hl
  | case2 cur hemp =>
    intro l hl
    rw [fillWords.eq_1, if_neg hemp] at hl
    simp at hl
    subst hl
    intro c hc
    exact Or.inr (Or.inl hc)
  | case3 w ws cur hemp hle ih =>
    intro l hl c hc
    rw [fillWords.eq_2, if_pos hemp, if_pos hle] at hl
    rcases ih l hl c hc with h | h | ⟨w1, hw1, hcw⟩
    · exact Or.inl h
    · exact Or.inr (Or.inr ⟨w, by simp, h⟩)
    · exact Or.inr (Or.inr ⟨w1, by simp [hw1], hcw⟩)
  | case4 w ws cur hemp hle h0 =>
    intro l hl
    rw [fillWords.eq_2, if_pos hemp, if_neg hle] at hl
    simp only [h0] at hl
    simp at hl
  | case5 w ws cur hemp hle h0 ih =>
    intro l hl c hc
    rw [fillWords.eq_2, if_pos hemp, if_neg hle] at hl
    rw [dif_neg h0] at hl
    rcases List.mem_cons.mp hl with hl | hl
    · subst hl
      exact Or.inr (Or.inr ⟨w, by simp, List.mem_of_mem_take hc⟩)
    · rcases ih l hl c hc with h | h | ⟨w1, hw1, hcw⟩
      · exact Or.inl h
      · simp at h
      · rcases List.mem_cons.mp hw1 with hw1 | hw1
        · subst hw1
          exact Or.inr (Or.inr ⟨w, by simp, List.mem_of_mem_drop hcw⟩)
        · exact Or.inr (Or.inr ⟨w1, by simp [hw1], hcw⟩)
  | case6 w ws cur hemp hle ih =>
    intro l hl c hc
    rw [fillWords.eq_2, if_neg hemp, if_pos hle] at hl
    rcases ih l hl c hc with h | h | ⟨w1, hw1, hcw⟩
    · exact Or.inl h
    · rcases List.mem_append.mp h with h | h
      · exact Or.inr (Or.inl h)
      · rcases List.mem_cons.mp h with h | h
        · exact Or.inl h
        · exact Or.inr (Or.inr ⟨w, by simp, h⟩)
    · exact Or.inr (Or.inr ⟨w1, by simp [hw1], hcw⟩)
  | case7 w ws cur hemp hle ih =>
    intro l hl c hc
    rw [fillWords.eq_2, if_neg hemp, if_neg hle] at hl
    rcases List.mem_cons.mp hl with hl | hl
    · subst hl
      exact Or.inr (Or.inl hc)
    · rcases ih l hl c hc with h | h | h
      · exact Or.inl h
      · simp at h
      · exact Or.inr (Or.inr h)

theorem wrapLoop_width_le {width : Nat} (h2 : 2 ≤ width) :
    ∀ (text cur : Str), displayWidth cur ≤ width →
      ∀ l ∈ wrapLoop width text cur (displayWidth cur), displayWidth l ≤ width := by
  intro text
  induction text with
  | nil =>
    intro cur hcur l hl
    simp only [wrapLoop] at hl
    split at hl
    · simp at hl
    · simp at hl
      simpa [hl] using hcur
  | cons ch rest ih =>
    intro cur hcur l hl
    simp only [wrapLoop] at hl
    split at hl
    · split at hl
      · rcases List.mem_cons.mp hl with hl | hl
        · simpa [hl] using hcur
        · have := ih [] (by simp [displayWidth_nil])
          simpa [displayWidth_nil] using this l hl
      · rcases List.mem_cons.mp hl with hl | hl
        · simpa [hl] using hcur
        · have h1 : displayWidth [ch] ≤ width := by
            have := charWidth_le_two ch
            simp only [displayWidth_singleton]
            omega
          have := ih [ch] h1
          rw [displayWidth_singleton] at this
          exact this l hl
    · rename_i hcond
      have hdw : displayWidth (cur ++ [ch]) = displayWidth cur + charWidth ch := by
        simp [displayWidth_append, displayWidth_singleton]
      have hb : displayWidth (cur ++ [ch]) ≤ width := by
        rcases Decidable.not_and_iff_or_not.mp hcond with h | h
        · omega
        · have hc : cur = [] := by
            simpa [List.isEmpty_iff] using Decidable.not_not.mp h
          subst hc
          have := charWidth_le_two ch
          simp only [hdw, displayWidth_nil]
          omega
      have := ih (cur ++ [ch]) hb
      rw [hdw] at this
      exact this l hl

theorem wrapLoop_flatten_sublist (width : Nat) :
    ∀ (text cur : Str) (cw : Nat),
      (wrapLoop width text cur cw).flatten.Sublist (cur ++ text) := by
  intro text
  induction text with
  | nil =>
    intro cur cw
    simp only [wrapLoop]
    split
    · simp
    · simp
  | cons ch rest ih =>
    intro cur cw
    simp only [wrapLoop]
    split
    · split
      · rename_i hsp
        subst hsp
        simp only [List.flatten_cons]
        refine List.Sublist.append_left ?_ cur
        have h1 := ih [] 0
        simp only [List.nil_append] at h1
        exact h1.trans (List.sublist_cons_self ' ' rest)
      · simp only [List.flatten_cons]
        refine List.Sublist.append_left ?_ cur
        simpa using ih [ch] (charWidth ch)
    · have h1 := ih (cur ++ [ch]) (cw + charWidth ch)
      simpa using h1

theorem wrapLoop_flatten_filter (width : Nat) :
    ∀ (text cur : Str) (cw : Nat),
      (wrapLoop width text cur cw).flatten.filter (fun c => ¬c = ' ') =
        (cur ++ text).filter (fun c => ¬c = ' ') := by
  intro text
  induction text with
  | nil =>
    intro cur cw
    simp only [wrapLoop]
    split
    · rename_i h
      simp [List.isEmpty_iff] at h
      simp [h]
    · simp
  | cons ch rest ih =>
    intro cur cw
    simp only [wrapLoop]
    split
    · split
      · rename_i hsp
        subst hsp
        simp only [List.flatten_cons, List.filter_append]
        rw [ih [] 0]
        simp
      · rename_i hsp
        simp only [List.flatten_cons, List.filter_append]
        rw [ih [ch] (charWidth ch)]
        simp [List.filter_cons, hsp]
    · rw [ih (cur ++ [ch]) (cw + charWidth ch)]
      simp

theorem wrapCjk_ne_nil (text : Str) (width : Nat) : wrapCjk text width ≠ [] := by
  simp only [wrapCjk]
  split
  · simp
  · split
    · split
      · simp
      · simp_all
    · split
      · simp
      · simp_all

theorem wrapChapterAux_length_eq (width lineSpacing : Nat) (tm : Bool)
    (cache : Cache) (lang : Str) :
    ∀ (i : Nat) (ps : List Str),
      ((wrapChapterAux width lineSpacing tm cache lang i ps).1).length =
        ((wrapChapterAux width lineSpacing tm cache lang i ps).2).length := by
  intro i ps
  induction ps generalizing i with
  | nil => rfl
  | cons p rest ih =>
    simp only [wrapChapterAux]
    rcases h : wrapChapterAux width lineSpacing tm cache lang (i + 1) rest with ⟨ls, ltp⟩
    have := ih (i + 1)
    rw [h] at this
    simp only at this
    simp only [h, List.length_append, List.length_replicate]
    omega

theorem wrapChapterAux_ne_nil (width lineSpacing : Nat) (tm : Bool)
    (cache : Cache) (lang : Str) (i : Nat) (p : Str) (rest : List Str) :
    ((wrapChapterAux width lineSpacing tm cache lang i (p :: rest)).1) ≠ [] := by
  simp only [wrapChapterAux]
  rcases h : wrapChapterAux width lineSpacing tm cache lang (i + 1) rest with ⟨ls, ltp⟩
  simp only [ne_eq, List.append_eq_nil, List.append_assoc]
  intro hcon
  exact wrapCjk_ne_nil p width hcon.1

theorem chunkPagesGo_fst_ne_nil (ph fuel : Nat) (l : Str) (ls : List Str)
    (ltp : List Nat) :
    ((chunkPagesGo ph (fuel + 1) (l :: ls) ltp).1) ≠ [] := by
  simp only [chunkPagesGo]
  rcases chunkPagesGo ph fuel (ls.drop (ph - 1)) (ltp.drop ph) with ⟨ps, rs⟩
  simp

theorem chunkPagesAux_fst_ne_nil (ph : Nat) (l : Str) (ls : List Str) (ltp : List Nat) :
    ((chunkPagesAux ph (l :: ls) ltp).1) ≠ [] := by
  simp only [chunkPagesAux, List.length_cons]
  exact chunkPagesGo_fst_ne_nil ph ls.length l ls ltp

theorem chunkPagesGo_pages_len (ph : Nat) (hph : 1 ≤ ph) :
    ∀ (fuel : Nat) (lines : List Str) (ltp : List Nat), lines.length ≤ fuel →
      (∀ pg ∈ (chunkPagesGo ph fuel lines ltp).1, 1 ≤ pg.length ∧ pg.length ≤ ph) ∧
      (∀ pg ∈ ((chunkPagesGo ph fuel lines ltp).1).dropLast, pg.length = ph) := by
  intro fuel
  induction fuel with
  | zero =>
    intro lines ltp hle
    have : lines = [] := List.length_eq_zero.mp (by omega)
    subst this
    simp [chunkPagesGo]
  | succ fuel ih =>
    intro lines ltp hle
    rcases lines with _ | ⟨l, ls⟩
    · simp [chunkPagesGo]
    simp only [chunkPagesGo]
    have hle2 : (ls.drop (ph - 1)).length ≤ fuel := by
      simp only [List.length_drop]
      simp only [List.length_cons] at hle
      omega
    have ihd := ih (ls.drop (ph - 1)) (ltp.drop ph) hle2
    rcases hck : chunkPagesGo ph fuel (ls.drop (ph - 1)) (ltp.drop ph) with ⟨ps, rs⟩
    rw [hck] at ihd
    simp only at ihd ⊢
    constructor
    · intro pg hpg
      rcases List.mem_cons.mp hpg with hpg | hpg
      · subst hpg
        simp only [List.length_cons, List.length_take]
        omega
      · exact ihd.1 pg hpg
    · intro pg hpg
      rcases hps : ps with _ | ⟨q, qs⟩
      · rw [hps] at hpg
        simp at hpg
      · rw [hps] at hpg
        rw [List.dropLast_cons_of_ne_nil (by simp)] at hpg
        rcases List.mem_cons.mp hpg with hpg | hpg
        · subst hpg
          have hdrop : ls.drop (ph - 1) ≠ [] := by
            intro hd
            rw [hd] at hck
            rcases fuel with _ | fuel2 <;> simp [chunkPagesGo] at hck <;>
              rw [hps] at hck <;> simp at hck
          have hlen : ph - 1 ≤ ls.length := by
            by_contra hcon
            push_neg at hcon
            exact hdrop (List.drop_eq_nil_of_le (by omega))
          simp only [List.length_cons, List.length_take]
          omega
        · exact ihd.2 pg (by rw [hps]; exact hpg)

theorem chunkPagesAux_pages_len (ph : Nat) (hph : 1 ≤ ph)
    (lines : List Str) (ltp : List Nat) :
    (∀ pg ∈ (chunkPagesAux ph lines ltp).1, 1 ≤ pg.length ∧ pg.length ≤ ph) ∧
    (∀ pg ∈ ((chunkPagesAux ph lines ltp).1).dropLast, pg.length = ph) :=
  chunkPagesGo_pages_len ph hph lines.length lines ltp le_rfl


theorem getLastD_mem {l : List Nat} (h : l ≠ []) (d : Nat) : l.getLastD d ∈ l := by
  rw [List.getLastD_eq_getLast?, List.getLast?_eq_getLast l h]
  simp only [Option.getD_some]
  exact List.getLast_mem h

theorem pairwise_le_getLastD {l : List Nat} (hp : List.Pairwise (· ≤ ·) l) :
    ∀ v ∈ l, v ≤ l.getLastD 0 := by
  induction l with
  | nil => simp
  | cons a l ih =>
    intro v hv
    rcases List.pairwise_cons.mp hp with ⟨ha, hl⟩
    rw [List.getLastD_cons]
    rcases List.mem_cons.mp hv with hv | hv
    · subst hv
      rcases hl2 : l with _ | ⟨b, l2⟩
      · simp
      · rw [← hl2]
        have : l.getLastD v ∈ l := getLastD_mem (by rw [hl2]; simp) v
        exact ha _ this
    · rcases hl2 : l with _ | ⟨b, l2⟩
      · rw [hl2] at hv; simp at hv
      · rw [← hl2]
        have hgl : l.getLastD a ∈ l := getLastD_mem (by rw [hl2]; simp) a
        calc v ≤ l.getLastD 0 := ih hl v hv
          _ = l.getLastD a := by
              rw [List.getLastD_eq_getLast?, List.getLastD_eq_getLast?,
                List.getLast?_eq_getLast l (by rw [hl2]; simp)]
              simp

theorem pairwise_head_le {t0 : Nat} {l : List Nat}
    (hp : List.Pairwise (· ≤ ·) (t0 :: l)) : ∀ v ∈ t0 :: l, t0 ≤ v := by
  intro v hv
  rcases List.mem_cons.mp hv with hv | hv
  · omega
  · exact (List.pairwise_cons.mp hp).1 v hv

theorem pairwise_replicate_append {n i : Nat} {l : List Nat}
    (hp : List.Pairwise (· ≤ ·) l) (hge : ∀ v ∈ l, i ≤ v) :
    List.Pairwise (· ≤ ·) (List.replicate n i ++ l) ∧
      ∀ v ∈ List.replicate n i ++ l, i ≤ v := by
  constructor
  · rw [List.pairwise_append]
    refine ⟨List.pairwise_replicate.mpr (Or.inr le_rfl), hp, ?_⟩
    intro a ha b hb
    have := List.eq_of_mem_replicate ha
    subst this
    exact hge b hb
  · intro v hv
    rcases List.mem_append.mp hv with hv | hv
    · exact le_of_eq (List.eq_of_mem_replicate hv).symm
    · exact hge v hv

theorem wrapChapterAux_ltp (width lineSpacing : Nat) (tm : Bool)
    (cache : Cache) (lang : Str) :
    ∀ (ps : List Str) (i : Nat),
      List.Pairwise (· ≤ ·) ((wrapChapterAux width lineSpacing tm cache lang i ps).2) ∧
      (∀ v ∈ (wrapChapterAux width lineSpacing tm cache lang i ps).2,
         i ≤ v ∧ v < i + ps.length) ∧
      (∀ j, j < ps.length →
         (i + j) ∈ (wrapChapterAux width lineSpacing tm cache lang i ps).2) := by
  intro ps
  induction ps with
  | nil => simp [wrapChapterAux]
  | cons p rest ih =>
    intro i
    simp only [wrapChapterAux]
    rcases h : wrapChapterAux width lineSpacing tm cache lang (i + 1) rest with ⟨ls, ltp⟩
    have ihr := ih (i + 1)
    rw [h] at ihr
    simp only at ihr ⊢
    obtain ⟨ihp, ihb, ihc⟩ := ihr
    simp only [List.append_assoc]
    have step3 := pairwise_replicate_append (l := ltp)
      (n := (if rest = [] then [] else List.replicate lineSpacing ([] : Str)).length)
      (i := i) ihp (fun v hv => by have := (ihb v hv).1; omega)
    have step2 := pairwise_replicate_append
      (n := (if tm = true then
          match getCached cache lang p with
          | some c => if c = [] then [] else wrapCjk (transMarker ++ c) width
          | none => []
        else []).length)
      (i := i) step3.1 step3.2
    have step1 := pairwise_replicate_append
      (n := (wrapCjk p width).length) (i := i) step2.1 step2.2
    refine ⟨step1.1, ?_, ?_⟩
    · intro v hv
      simp only [List.length_cons]
      constructor
      · exact step1.2 v hv
      · rcases List.mem_append.mp hv with hv | hv
        · have := List.eq_of_mem_replicate hv
          omega
        rcases List.mem_append.mp hv with hv | hv
        · have := List.eq_of_mem_replicate hv
          omega
        rcases List.mem_append.mp hv with hv | hv
        · have := List.eq_of_mem_replicate hv
          omega
        · have := (ihb v hv).2
          omega
    · intro j hj
      rcases j with _ | j2
      · refine List.mem_append.mpr (Or.inl ?_)
        rw [List.mem_replicate]
        refine ⟨?_, rfl⟩
        have := wrapCjk_ne_nil p width
        simpa [List.length_eq_zero] using this
      · have hj2 : j2 < rest.length := by
          simp only [List.length_cons] at hj
          omega
        have := ihc j2 hj2
        refine List.mem_append.mpr (Or.inr (List.mem_append.mpr (Or.inr
          (List.mem_append.mpr (Or.inr ?_)))))
        have harith : i + (j2 + 1) = i + 1 + j2 := by omega
        rw [harith]
        exact this

theorem chunkPagesGo_ranges (ph : Nat) (hph : 1 ≤ ph) :
    ∀ (fuel : Nat) (lines : List Str) (ltp : List Nat),
      lines.length ≤ fuel → lines.length = ltp.length →
      List.Pairwise (· ≤ ·) ltp →
      (∀ r ∈ (chunkPagesGo ph fuel lines ltp).2, r.1 ≤ r.2 ∧ r.1 ∈ ltp ∧ r.2 ∈ ltp) ∧
      List.Pairwise (fun a b => a.1 ≤ b.1 ∧ a.2 ≤ b.2)
        ((chunkPagesGo ph fuel lines ltp).2) ∧
      (∀ v ∈ ltp, ∃ r ∈ (chunkPagesGo ph fuel lines ltp).2, r.1 ≤ v ∧ v ≤ r.2) := by
  intro fuel
  induction fuel with
  | zero =>
    intro lines ltp hle heq hp
    have h1 : lines = [] := List.length_eq_zero.mp (by omega)
    subst h1
    have h2 : ltp = [] := List.length_eq_zero.mp (by omega)
    subst h2
    simp [chunkPagesGo]
  | succ fuel ih =>
    intro lines ltp hle heq hp
    rcases lines with _ | ⟨l, ls⟩
    · have h2 : ltp = [] := List.length_eq_zero.mp (by simpa using heq.symm)
      subst h2
      simp [chunkPagesGo]
    rcases ltp with _ | ⟨t0, ltpr⟩
    · simp at heq
    simp only [List.length_cons] at hle heq
    have hTD := List.take_append_drop ph (t0 :: ltpr)
    have hpsplit := List.pairwise_append.mp (by rw [hTD]; exact hp)
    obtain ⟨pT, pD, pCross⟩ := hpsplit
    have hTcons : List.take ph (t0 :: ltpr) = t0 :: List.take (ph - 1) ltpr :=
      List.take_cons (by omega)
    have hTne : List.take ph (t0 :: ltpr) ≠ [] := by rw [hTcons]; simp
    have hheadle := pairwise_head_le hp
    have hleLast := pairwise_le_getLastD pT
    have hdl : (ls.drop (ph - 1)).length = ((t0 :: ltpr).drop ph).length := by
      simp only [List.length_drop, List.length_cons]
      omega
    have hdf : (ls.drop (ph - 1)).length ≤ fuel := by
      simp only [List.length_drop]
      omega
    have ihr := ih (ls.drop (ph - 1)) ((t0 :: ltpr).drop ph) hdf hdl pD
    simp only [chunkPagesGo]
    rcases hck : chunkPagesGo ph fuel (ls.drop (ph - 1)) ((t0 :: ltpr).drop ph)
      with ⟨ps, rs⟩
    rw [hck] at ihr
    simp only at ihr ⊢
    obtain ⟨ihm, ihpw, ihcov⟩ := ihr
    have hheadD : (t0 :: ltpr).headD 0 = t0 := rfl
    refine ⟨?_, ?_, ?_⟩
    · intro r hr
      rcases List.mem_cons.mp hr with hr | hr
      · subst hr
        simp only [hheadD]
        refine ⟨?_, by simp, ?_⟩
        · exact hleLast t0 (by rw [hTcons]; simp)
        · exact List.mem_of_mem_take (getLastD_mem hTne 0)
      · obtain ⟨hle1, hm1, hm2⟩ := ihm r hr
        exact ⟨hle1, List.mem_of_mem_drop hm1, List.mem_of_mem_drop hm2⟩
    · rw [List.pairwise_cons]
      refine ⟨?_, ihpw⟩
      intro r' hr'
      obtain ⟨_, hm1, hm2⟩ := ihm r' hr'
      constructor
      · simp only [hheadD]
        exact hheadle r'.1 (List.mem_of_mem_drop hm1)
      · exact pCross _ (getLastD_mem hTne 0) _ hm2
    · intro v hv
      rcases List.mem_append.mp (by rw [hTD]; exact hv) with hv2 | hv2
      · refine ⟨((t0 :: ltpr).headD 0, (List.take ph (t0 :: ltpr)).getLastD 0),
          by simp, ?_, ?_⟩
        · simp only [hheadD]
          exact hheadle v (List.mem_of_mem_take hv2)
        · exact hleLast v hv2
      · obtain ⟨r, hr, h1, h2⟩ := ihcov v hv2
        exact ⟨r, List.mem_cons_of_mem _ hr, h1, h2⟩

theorem splitDashes_ne_nil : ∀ s : Str, splitDashes s ≠ [] := by
  intro s
  induction s using splitDashes.induct with
  | case1 => simp [splitDashes.eq_1]
  | case2 rest ih => simp [splitDashes.eq_2]
  | case3 c rest hg h t heq ih =>
    rw [splitDashes.eq_3 c rest hg, heq]
    simp
  | case4 c rest hg heq ih =>
    rw [splitDashes.eq_3 c rest hg, heq]
    simp

theorem hasTripleDash_cons_false {c : Char} {t : Str}
    (h : hasTripleDash (c :: t) = false) :
    (c = '-' && t.take 2 = ['-', '-']) = false ∧ hasTripleDash t = false := by
  simpa [hasTripleDash, Bool.or_eq_false_iff] using h

theorem not_triple_guard {c : Char} {t s : Str}
    (h : hasTripleDash (c :: t) = false) :
    ∀ r1 : Str, c = '-' → t ++ '\n' :: s = '-' :: '-' :: r1 → False := by
  intro r1 hc heq
  rcases t with _ | ⟨d1, t2⟩
  · simp at heq
  rcases t2 with _ | ⟨d2, t3⟩
  · simp at heq
  · simp only [List.cons_append, List.cons.injEq] at heq
    obtain ⟨hd1, hd2, _⟩ := heq
    have := (hasTripleDash_cons_false h).1
    subst hc hd1 hd2
    simp at this

theorem splitDashes_no_triple {t : Str} (h : hasTripleDash t = false) :
    splitDashes t = [t] := by
  induction t with
  | nil => rfl
  | cons c t2 ih =>
    have hs := hasTripleDash_cons_false h
    have hguard : ∀ r1 : Str, c = '-' → t2 = '-' :: '-' :: r1 → False := by
      intro r1 hc ht
      subst hc
      subst ht
      simp at hs
    rw [splitDashes.eq_3 c t2 hguard, ih hs.2]

theorem splitDashes_append_sep {t s : Str} (h : hasTripleDash t = false)
    {hd : Str} {tl : List Str} (hs : splitDashes s = hd :: tl) :
    splitDashes (t ++ '\n' :: s) = (t ++ '\n' :: hd) :: tl := by
  induction t with
  | nil =>
    simp only [List.nil_append]
    rw [splitDashes.eq_3 '\n' s (by intro r1 hc; simp at hc), hs]
  | cons c t2 ih =>
    have hs2 := hasTripleDash_cons_false h
    have hrec := ih hs2.2
    rw [List.cons_append, splitDashes.eq_3 c (t2 ++ '\n' :: s) (not_triple_guard h),
      hrec]
    rfl

theorem pyStrip_cons_space {c : Char} (hc : isPySpace c = true) (t : Str) :
    pyStrip (c :: t) = pyStrip t := by
  simp [pyStrip, List.dropWhile_cons_of_pos hc]

theorem pyStrip_eq_self_parts {t : Str} (h : pyStrip t = t) :
    t.dropWhile isPySpace = t ∧ t.reverse.dropWhile isPySpace = t.reverse := by
  have hsuf1 : (t.dropWhile isPySpace) <:+ t := List.dropWhile_suffix _
  have hsuf2 : ((t.dropWhile isPySpace).reverse.dropWhile isPySpace) <:+
      (t.dropWhile isPySpace).reverse := List.dropWhile_suffix _
  have hl : (pyStrip t).length = t.length := by rw [h]
  have hlp : (pyStrip t).length =
      ((t.dropWhile isPySpace).reverse.dropWhile isPySpace).length := by
    simp [pyStrip]
  have hle1 : (t.dropWhile isPySpace).length ≤ t.length := hsuf1.length_le
  have hle2 : ((t.dropWhile isPySpace).reverse.dropWhile isPySpace).length ≤
      (t.dropWhile isPySpace).length := by
    have := hsuf2.length_le
    simpa using this
  have heq1 : (t.dropWhile isPySpace).length = t.length := by omega
  have hdw : t.dropWhile isPySpace = t := hsuf1.eq_of_length heq1
  refine ⟨hdw, ?_⟩
  have h2 : (t.reverse.dropWhile isPySpace).reverse = t := by
    have := h
    simp only [pyStrip, hdw] at this
    exact this
  calc t.reverse.dropWhile isPySpace
      = ((t.reverse.dropWhile isPySpace).reverse).reverse := by simp
    _ = t.reverse := by rw [h2]

theorem pyStrip_append_newline {t : Str} (h : pyStrip t = t) :
    pyStrip (t ++ ['\n']) = t := by
  obtain ⟨hdw, hrdw⟩ := pyStrip_eq_self_parts h
  rcases t with _ | ⟨a, t2⟩
  · decide
  · have ha : ¬isPySpace a = true := by
      intro hcon
      rw [List.dropWhile_cons_of_pos hcon] at hdw
      have := (List.dropWhile_suffix (l := t2) isPySpace).length_le
      rw [hdw] at this
      simp at this
    simp only [pyStrip, List.cons_append, List.dropWhile_cons_of_neg ha]
    have hrev : ((a :: (t2 ++ ['\n'])).reverse) = '\n' :: (a :: t2).reverse := by
      simp
    rw [hrev, List.dropWhile_cons_of_pos (by decide), hrdw]
    simp

theorem splitJoin (ts : List Str) (hne : ts ≠ [])
    (hcond : ∀ t ∈ ts, hasTripleDash t = false ∧ pyStrip t = t) :
    (splitDashes (joinSep batchSeparator ts)).map pyStrip = ts := by
  induction ts with
  | nil => exact absurd rfl hne
  | cons t ts2 ih =>
    rcases ts2 with _ | ⟨t2, ts3⟩
    · have hc := hcond t (by simp)
      simp only [joinSep, splitDashes_no_triple hc.1, List.map_cons, List.map_nil]
      rw [hc.2]
    · have hc := hcond t (by simp)
      have hjoin : joinSep batchSeparator (t :: t2 :: ts3) =
          t ++ '\n' :: ('-' :: '-' :: '-' :: ('\n' ::
            joinSep batchSeparator (t2 :: ts3))) := by
        simp [joinSep, batchSeparator]
      rcases hsp : splitDashes (joinSep batchSeparator (t2 :: ts3)) with _ | ⟨hd, tl⟩
      · exact absurd hsp (splitDashes_ne_nil _)
      have hstep1 : splitDashes ('\n' :: joinSep batchSeparator (t2 :: ts3)) =
          ('\n' :: hd) :: tl := by
        rw [splitDashes.eq_3 '\n' _ (by intro r1 hc2; simp at hc2), hsp]
      have hstep2 : splitDashes ('-' :: '-' :: '-' ::
          ('\n' :: joinSep batchSeparator (t2 :: ts3))) =
          [] :: ('\n' :: hd) :: tl := by
        rw [splitDashes.eq_2, hstep1]
      have hstep3 : splitDashes (t ++ '\n' :: ('-' :: '-' :: '-' ::
          ('\n' :: joinSep batchSeparator (t2 :: ts3)))) =
          (t ++ '\n' :: []) :: ('\n' :: hd) :: tl :=
        splitDashes_append_sep hc.1 hstep2
      rw [hjoin, hstep3]
      simp only [List.map_cons]
      rw [pyStrip_append_newline hc.2, pyStrip_cons_space (by decide)]
      have ihres := ih (by simp) (fun x hx => hcond x (List.mem_cons_of_mem t hx))
      rw [hsp] at ihres
      simp only [List.map_cons] at ihres
      rw [ihres]

theorem getContentDimensions_height (w h : Nat) :
    3 ≤ (getContentDimensions w h).2 := by
  simp only [getContentDimensions]
  split
  · simp
  · rename_i hc
    push_neg at hc
    simpa using hc.2

theorem renderPageSingle_length (page : List Str) (contentH : Nat)
    (h : page.length ≤ contentH) :
    (renderPageSingle page contentH).length = contentH := by
  simp only [renderPageSingle, List.length_append, List.length_replicate]
  omega

theorem find?_filter_of_imp {α : Type} (l : List α) (p q : α → Bool)
    (himp : ∀ e, p e = true → q e = true) :
    (l.filter q).find? p = l.find? p := by
  induction l with
  | nil => rfl
  | cons a l ih =>
    by_cases hq : q a = true
    · rw [List.filter_cons, if_pos hq, List.find?_cons, List.find?_cons]
      cases hpa : p a
      · exact ih
      · rfl
    · have hpa : p a = false := by
        rcases h2 : p a
        · rfl
        · exact absurd (himp a h2) hq
      rw [List.filter_cons, if_neg hq, ih, List.find?_cons, hpa]

theorem cacheStore_lookup (c : Cache) (tx lx v t l : Str) :
    cacheLookup (cacheStore c tx lx v) t l =
      if t = tx ∧ l = lx then some v else cacheLookup c t l := by
  simp only [cacheLookup, cacheStore, List.find?_cons]
  by_cases heq : t = tx ∧ l = lx
  · obtain ⟨h1, h2⟩ := heq
    subst h1 h2
    simp
  · rw [if_neg heq]
    have hcond : (decide (((tx, lx), v).1 = (t, l))) = false := by
      simp only [decide_eq_false_iff_not]
      intro hcon
      simp only [Prod.mk.injEq] at hcon
      exact heq ⟨hcon.1.symm, hcon.2.symm⟩
    rw [hcond]
    rw [find?_filter_of_imp]
    intro e he
    simp only [decide_eq_true_eq] at he ⊢
    intro hcon
    rw [he] at hcon
    simp only [Prod.mk.injEq] at hcon
    exact heq hcon

theorem cacheStore_lookup_isSome (c : Cache) (tx lx v t l : Str)
    (h : (cacheLookup c t l).isSome = true) :
    (cacheLookup (cacheStore c tx lx v) t l).isSome = true := by
  rw [cacheStore_lookup]
  split
  · simp
  · exact h

theorem writeBack_lookup_some (lang : Str) (paras parts : List Str) :
    ∀ (idxs : List Nat) (j0 : Nat) (rs : List (Option Str)) (c : Cache) (t : Str),
      ((cacheLookup c t lang).isSome = true ∨
        ∃ p, p < idxs.length ∧ paras.getD (idxs.getD p 0) [] = t) →
      (cacheLookup (writeBack lang paras parts idxs j0 rs c).2 t lang).isSome = true := by
  intro idxs
  induction idxs with
  | nil =>
    intro j0 rs c t h
    rcases h with h | ⟨p, hp, _⟩
    · exact h
    · simp at hp
  | cons idx more ih =>
    intro j0 rs c t h
    simp only [writeBack]
    apply ih
    rcases h with h | ⟨p, hp, ht⟩
    · exact Or.inl (cacheStore_lookup_isSome _ _ _ _ _ _ h)
    · rcases p with _ | p2
      · refine Or.inl ?_
        rw [cacheStore_lookup]
        rw [List.getD_cons_zero] at ht
        rw [if_pos ⟨ht.symm, rfl⟩]
        simp
      · refine Or.inr ⟨p2, ?_, ?_⟩
        · simp only [List.length_cons] at hp
          omega
        · rw [List.getD_cons_succ] at ht
          exact ht

theorem writeBack_lookup_nil_persist (lang : Str) (paras parts : List Str) :
    ∀ (idxs : List Nat) (j0 : Nat) (rs : List (Option Str)) (c : Cache) (t : Str),
      cacheLookup c t lang = some [] →
      (∀ p, p < idxs.length → paras.getD (idxs.getD p 0) [] = t →
        parts.getD (j0 + p) [] = []) →
      cacheLookup (writeBack lang paras parts idxs j0 rs c).2 t lang = some [] := by
  intro idxs
  induction idxs with
  | nil =>
    intro j0 rs c t h0 _
    exact h0
  | cons idx more ih =>
    intro j0 rs c t h0 hz
    simp only [writeBack]
    apply ih
    · rw [cacheStore_lookup]
      split
      · rename_i hcase
        have := hz 0 (by simp) (by rw [List.getD_cons_zero]; exact hcase.1.symm)
        rw [Nat.add_zero] at this
        rw [this]
      · exact h0
    · intro p hp ht
      have := hz (p + 1) (by simp only [List.length_cons]; omega)
        (by rw [List.getD_cons_succ]; exact ht)
      have harith : j0 + (p + 1) = j0 + 1 + p := by omega
      rw [harith] at this
      exact this

theorem writeBack_lookup_final_nil (lang : Str) (paras parts : List Str) :
    ∀ (idxs : List Nat) (j0 : Nat) (rs : List (Option Str)) (c : Cache) (t : Str)
      (p : Nat),
      p < idxs.length → paras.getD (idxs.getD p 0) [] = t →
      (∀ q, p ≤ q → q < idxs.length → parts.getD (j0 + q) [] = []) →
      cacheLookup (writeBack lang paras parts idxs j0 rs c).2 t lang = some [] := by
  intro idxs
  induction idxs with
  | nil =>
    intro j0 rs c t p hp
    simp at hp
  | cons idx more ih =>
    intro j0 rs c t p hp ht hall
    simp only [writeBack]
    rcases p with _ | p2
    · rw [List.getD_cons_zero] at ht
      apply writeBack_lookup_nil_persist
      · rw [cacheStore_lookup, if_pos ⟨ht.symm, rfl⟩]
        have := hall 0 le_rfl (by simp)
        rw [Nat.add_zero] at this
        rw [this]
      · intro q hq hqt
        have := hall (q + 1) (by omega) (by simp only [List.length_cons]; omega)
        have harith : j0 + (q + 1) = j0 + 1 + q := by omega
        rw [harith] at this
        exact this
    · apply ih (j0 + 1) _ _ t p2
      · simp only [List.length_cons] at hp
        omega
      · rw [List.getD_cons_succ] at ht
        exact ht
      · intro q hq hql
        have := hall (q + 1) (by omega) (by simp only [List.length_cons]; omega)
        have harith : j0 + (q + 1) = j0 + 1 + q := by omega
        rw [harith] at this
        exact this

theorem callApiBatch_getD_nil (provider : Str → Str) (texts : List Str) (j : Nat)
    (hj : ((splitDashes (provider (joinSep batchSeparator texts))).map pyStrip).length
      ≤ j) :
    (callApiBatch provider texts).getD j [] = [] := by
  simp only [callApiBatch]
  split
  · rename_i hlt
    by_cases hjt : j < texts.length
    · rw [List.getD_eq_getElem?_getD, List.getElem?_take, if_pos hjt,
        List.getElem?_append_right hj, List.getElem?_replicate,
        if_pos (by omega)]
      rfl
    · exact List.getD_eq_default _ _ (by
        simp only [List.length_take]
        omega)
  · exact List.getD_eq_default _ _ (by
      simp only [List.length_take]
      omega)

theorem classifyParas_misses (cache : Cache) (lang : Str) :
    ∀ (ps : List Str) (i : Nat),
      ((classifyParas cache lang i ps).2.1).length =
        ((classifyParas cache lang i ps).2.2).length ∧
      (∀ j, j < ((classifyParas cache lang i ps).2.1).length →
        ∃ k, k < ps.length ∧ ((classifyParas cache lang i ps).2.1).getD j 0 = i + k ∧
          ps.getD k [] = ((classifyParas cache lang i ps).2.2).getD j []) ∧
      (∀ p ∈ ps, ¬pyStrip p = [] → getCached cache lang p = none →
        p ∈ (classifyParas cache lang i ps).2.2) := by
  intro ps
  induction ps with
  | nil => simp [classifyParas]
  | cons p rest ih =>
    intro i
    simp only [classifyParas]
    rcases hcl : classifyParas cache lang (i + 1) rest with ⟨rs, idxs, txts⟩
    have ihr := ih (i + 1)
    rw [hcl] at ihr
    simp only at ihr
    obtain ⟨ihlen, ihcor, ihmem⟩ := ihr
    by_cases hblank : pyStrip p = []
    · rw [if_pos hblank]
      simp only
      refine ⟨ihlen, ?_, ?_⟩
      · intro j hj
        obtain ⟨k, hk, hidx, hval⟩ := ihcor j hj
        exact ⟨k + 1, by simp only [List.length_cons]; omega,
          by rw [hidx]; omega, by rw [List.getD_cons_succ]; exact hval⟩
      · intro q hq hqs hqc
        rcases List.mem_cons.mp hq with hq | hq
        · subst hq
          exact absurd hblank hqs
        · exact ihmem q hq hqs hqc
    · rw [if_neg hblank]
      rcases hget : getCached cache lang p with _ | c
      · simp only
        refine ⟨by simp [ihlen], ?_, ?_⟩
        · intro j hj
          rcases j with _ | j2
          · exact ⟨0, by simp, by simp, by simp⟩
          · simp only [List.length_cons] at hj
            obtain ⟨k, hk, hidx, hval⟩ := ihcor j2 (by omega)
            refine ⟨k + 1, by simp only [List.length_cons]; omega, ?_, ?_⟩
            · rw [List.getD_cons_succ, hidx]
              omega
            · rw [List.getD_cons_succ, List.getD_cons_succ]
              exact hval
        · intro q hq hqs hqc
          rcases List.mem_cons.mp hq with hq | hq
          · subst hq
            simp
          · exact List.mem_cons_of_mem _ (ihmem q hq hqs hqc)
      · simp only
        refine ⟨ihlen, ?_, ?_⟩
        · intro j hj
          obtain ⟨k, hk, hidx, hval⟩ := ihcor j hj
          exact ⟨k + 1, by simp only [List.length_cons]; omega,
            by rw [hidx]; omega, by rw [List.getD_cons_succ]; exact hval⟩
        · intro q hq hqs hqc
          rcases List.mem_cons.mp hq with hq | hq
          · subst hq
            rw [hget] at hqc
            simp at hqc
          · exact ihmem q hq hqs hqc

theorem classifyParas_no_miss (cache : Cache) (lang : Str) :
    ∀ (ps : List Str) (i : Nat),
      (∀ p ∈ ps, pyStrip p = [] ∨ (getCached cache lang p).isSome = true) →
      (classifyParas cache lang i ps).2.2 = [] := by
  intro ps
  induction ps with
  | nil => simp [classifyParas]
  | cons p rest ih =>
    intro i h
    simp only [classifyParas]
    rcases hcl : classifyParas cache lang (i + 1) rest with ⟨rs, idxs, txts⟩
    have ihr := ih (i + 1) (fun q hq => h q (List.mem_cons_of_mem p hq))
    rw [hcl] at ihr
    simp only at ihr
    subst ihr
    by_cases hblank : pyStrip p = []
    · rw [if_pos hblank]
    · rw [if_neg hblank]
      rcases hget : getCached cache lang p with _ | c
      · rcases h p (by simp) with hc | hc
        · exact absurd hc hblank
        · rw [hget] at hc
          simp at hc
      · simp

theorem getD_map_of_lt {α β : Type} (f : α → β) (l : List α) {i : Nat}
    (hi : i < l.length) (d : β) (d0 : α) :
    (l.map f).getD i d = f (l.getD i d0) := by
  rw [List.getD_eq_getElem?_getD, List.getElem?_map, List.getD_eq_getElem?_getD,
    List.getElem?_eq_getElem hi]
  rfl

theorem classifyParas_results_getD (cache : Cache) (lang : Str) :
    ∀ (ps : List Str) (i k : Nat), k < ps.length →
      ((classifyParas cache lang i ps).1).getD k none =
        (if pyStrip (ps.getD k []) = [] then some []
         else getCached cache lang (ps.getD k [])) := by
  intro ps
  induction ps with
  | nil =>
    intro i k hk
    simp at hk
  | cons p rest ih =>
    intro i k hk
    simp only [classifyParas]
    rcases hcl : classifyParas cache lang (i + 1) rest with ⟨rs, idxs, txts⟩
    have ihr := ih (i + 1)
    rw [hcl] at ihr
    simp only at ihr
    by_cases hblank : pyStrip p = []
    · rw [if_pos hblank]
      rcases k with _ | k2
      · simp [hblank]
      · simp only [List.getD_cons_succ]
        exact ihr k2 (by simp only [List.length_cons] at hk; omega)
    · rw [if_neg hblank]
      rcases hget : getCached cache lang p with _ | c
      · simp only
        rcases k with _ | k2
        · simp [hblank, hget]
        · simp only [List.getD_cons_succ]
          exact ihr k2 (by simp only [List.length_cons] at hk; omega)
      · simp only
        rcases k with _ | k2
        · simp [hblank, hget]
        · simp only [List.getD_cons_succ]
          exact ihr k2 (by simp only [List.length_cons] at hk; omega)

theorem classifyParas_idxs_mem (cache : Cache) (lang : Str) :
    ∀ (ps : List Str) (i x : Nat), x ∈ (classifyParas cache lang i ps).2.1 →
      ∃ k, k < ps.length ∧ x = i + k ∧ ¬pyStrip (ps.getD k []) = [] ∧
        getCached cache lang (ps.getD k []) = none := by
  intro ps
  induction ps with
  | nil =>
    intro i x hx
    simp [classifyParas] at hx
  | cons p rest ih =>
    intro i x hx
    simp only [classifyParas] at hx
    rcases hcl : classifyParas cache lang (i + 1) rest with ⟨rs, idxs, txts⟩
    rw [hcl] at hx
    have shift : x ∈ idxs →
        ∃ k, k < (p :: rest).length ∧ x = i + k ∧
          ¬pyStrip ((p :: rest).getD k []) = [] ∧
          getCached cache lang ((p :: rest).getD k []) = none := by
      intro hmem
      obtain ⟨k, hk, hxk, hnb, hnc⟩ := ih (i + 1) x (by rw [hcl]; exact hmem)
      exact ⟨k + 1, by simp only [List.length_cons]; omega, by omega,
        by rw [List.getD_cons_succ]; exact hnb,
        by rw [List.getD_cons_succ]; exact hnc⟩
    by_cases hblank : pyStrip p = []
    · rw [if_pos hblank] at hx
      exact shift hx
    · rw [if_neg hblank] at hx
      rcases hget : getCached cache lang p with _ | c
      · rw [hget] at hx
        simp only at hx
        rcases List.mem_cons.mp hx with hx | hx
        · exact ⟨0, by simp, by omega, by simpa using hblank, by simpa using hget⟩
        · exact shift hx
      · rw [hget] at hx
        exact shift hx

theorem classifyParas_idxs_sorted (cache : Cache) (lang : Str) :
    ∀ (ps : List Str) (i : Nat),
      List.Pairwise (· < ·) ((classifyParas cache lang i ps).2.1) ∧
      ∀ x ∈ (classifyParas cache lang i ps).2.1, i ≤ x := by
  intro ps
  induction ps with
  | nil =>
    intro i
    simp [classifyParas]
  | cons p rest ih =>
    intro i
    simp only [classifyParas]
    rcases hcl : classifyParas cache lang (i + 1) rest with ⟨rs, idxs, txts⟩
    have ihr := ih (i + 1)
    rw [hcl] at ihr
    simp only at ihr
    by_cases hblank : pyStrip p = []
    · rw [if_pos hblank]
      exact ⟨ihr.1, fun x hx => by have := ihr.2 x hx; omega⟩
    · rw [if_neg hblank]
      rcases getCached cache lang p with _ | c
      · simp only
        refine ⟨?_, ?_⟩
        · rw [List.pairwise_cons]
          exact ⟨fun x hx => by have := ihr.2 x hx; omega, ihr.1⟩
        · intro x hx
          rcases List.mem_cons.mp hx with hx | hx
          · omega
          · have := ihr.2 x hx
            omega
      · exact ⟨ihr.1, fun x hx => by have := ihr.2 x hx; omega⟩

theorem writeBack_results_getD_not_mem (lang : Str) (paras parts : List Str) :
    ∀ (idxs : List Nat) (j : Nat) (rs : List (Option Str)) (c : Cache) (i : Nat)
      (d : Option Str), i ∉ idxs →
      ((writeBack lang paras parts idxs j rs c).1).getD i d = rs.getD i d := by
  intro idxs
  induction idxs with
  | nil =>
    intro j rs c i d _
    rfl
  | cons idx more ih =>
    intro j rs c i d hi
    simp only [writeBack]
    rw [ih _ _ _ i d (fun hc => hi (List.mem_cons_of_mem idx hc))]
    rw [List.getD_eq_getElem?_getD, List.getD_eq_getElem?_getD,
      List.getElem?_set_ne (fun heq => hi (by rw [heq]; simp))]
    rw [← List.getD_eq_getElem?_getD]

theorem writeBack_results_getD_at (lang : Str) (paras parts : List Str) :
    ∀ (idxs : List Nat) (j0 : Nat) (rs : List (Option Str)) (c : Cache) (j : Nat),
      List.Pairwise (· < ·) idxs → (∀ x ∈ idxs, x < rs.length) →
      j < idxs.length →
      ((writeBack lang paras parts idxs j0 rs c).1).getD (idxs.getD j 0) none =
        some (parts.getD (j0 + j) []) := by
  intro idxs
  induction idxs with
  | nil =>
    intro j0 rs c j _ _ hj
    simp at hj
  | cons idx more ih =>
    intro j0 rs c j hsort hbound hj
    simp only [writeBack]
    rcases j with _ | j2
    · rw [List.getD_cons_zero]
      have hnm : idx ∉ more := by
        intro hmem
        have := (List.pairwise_cons.mp hsort).1 idx hmem
        omega
      rw [writeBack_results_getD_not_mem lang paras parts more _ _ _ idx none hnm]
      rw [List.getD_eq_getElem?_getD,
        List.getElem?_set_self (hbound idx (by simp))]
      rw [Nat.add_zero]
      rfl
    · rw [List.getD_cons_succ]
      have harith : j0 + (j2 + 1) = j0 + 1 + j2 := by omega
      rw [harith]
      apply ih
      · exact (List.pairwise_cons.mp hsort).2
      · intro x hx
        rw [List.length_set]
        exact hbound x (List.mem_cons_of_mem idx hx)
      · simp only [List.length_cons] at hj
        omega

theorem taWrite_lookup_some (lang : Str) (parts : List Str) :
    ∀ (batch : List (Nat × Str)) (j : Nat) (rsl : List Str) (c : Cache) (t : Str),
      ((cacheLookup c t lang).isSome = true ∨ ∃ e ∈ batch, e.2 = t) →
      (cacheLookup (taWrite lang parts batch j rsl c).2 t lang).isSome = true := by
  intro batch
  induction batch with
  | nil =>
    intro j rsl c t h
    rcases h with h | ⟨e, he, _⟩
    · exact h
    · simp at he
  | cons e0 more ih =>
    intro j rsl c t h
    rcases e0 with ⟨idx, txt⟩
    simp only [taWrite]
    apply ih
    rcases h with h | ⟨e, he, het⟩
    · exact Or.inl (cacheStore_lookup_isSome _ _ _ _ _ _ h)
    · rcases List.mem_cons.mp he with he | he
      · subst he
        refine Or.inl ?_
        rw [cacheStore_lookup, if_pos ⟨het.symm, rfl⟩]
        simp
      · exact Or.inr ⟨e, he, het⟩

theorem TADispatchInv_mono {lang : Str} {flag : Nat → Bool} {st : TAState}
    {i i2 : Nat} (h : TADispatchInv lang flag st i) (hle : i ≤ i2) :
    TADispatchInv lang flag st i2 := by
  obtain ⟨h1, h2, h3⟩ := h
  refine ⟨?_, ?_, h3⟩
  · intro mc hmc
    obtain ⟨a, b, c⟩ := h1 mc hmc
    exact ⟨a, by omega, c⟩
  · intro jt hjt
    obtain ⟨a, b⟩ := h2 jt hjt
    exact ⟨by omega, b⟩

theorem dispatchBatch_inv {lang : Str} {provider : Nat → Str → Str}
    {total : Nat} {flag : Nat → Bool} {st : TAState} {m : Nat}
    (hd : ∀ mc ∈ st.dispatched, flag mc.1 = false ∧ mc.1 < m ∧
       ∀ jt ∈ mc.2, jt.1 ≤ mc.1 ∧ flag jt.1 = false)
    (hb : ∀ jt ∈ st.batch, jt.1 ≤ m ∧ flag jt.1 = false)
    (hc : ∀ mc ∈ st.dispatched, ∀ jt ∈ mc.2,
       (cacheLookup st.cache jt.2 lang).isSome = true)
    (hm : flag m = false) :
    TADispatchInv lang flag (dispatchBatch lang provider total st m) (m + 1) := by
  simp only [dispatchBatch, TADispatchInv]
  refine ⟨?_, by simp, ?_⟩
  · intro mc hmc
    rcases List.mem_append.mp hmc with hmc | hmc
    · obtain ⟨a, b, c⟩ := hd mc hmc
      exact ⟨a, by omega, c⟩
    · simp only [List.mem_singleton] at hmc
      subst hmc
      exact ⟨hm, by omega, hb⟩
  · intro mc hmc jt hjt
    rcases List.mem_append.mp hmc with hmc | hmc
    · exact taWrite_lookup_some lang _ st.batch 0 st.results st.cache jt.2
        (Or.inl (hc mc hmc jt hjt))
    · simp only [List.mem_singleton] at hmc
      subst hmc
      exact taWrite_lookup_some lang _ st.batch 0 st.results st.cache jt.2
        (Or.inr ⟨jt, hjt, rfl⟩)

theorem taLoop_inv (lang : Str) (provider : Nat → Str → Str) (flag : Nat → Bool)
    (total : Nat) :
    ∀ (rem : List Str) (i : Nat) (st : TAState),
      TADispatchInv lang flag st i →
      i ≤ (taLoop lang provider flag total rem i st).1 ∧
      TADispatchInv lang flag (taLoop lang provider flag total rem i st).2
        (taLoop lang provider flag total rem i st).1 := by
  intro rem
  induction rem with
  | nil =>
    intro i st h
    exact ⟨le_rfl, h⟩
  | cons p rest ih =>
    intro i st h
    simp only [taLoop]
    by_cases hf : flag i = true
    · rw [if_pos hf]
      exact ⟨le_rfl, h⟩
    rw [if_neg hf]
    have hfalse : flag i = false := by
      rcases h2 : flag i
      · rfl
      · exact absurd h2 hf
    by_cases hres : ¬st.results.getD i [] = []
    · rw [if_pos hres]
      have := ih (i + 1) st (TADispatchInv_mono h (by omega))
      exact ⟨by omega, this.2⟩
    rw [if_neg hres]
    by_cases hbl : pyStrip p = []
    · rw [if_pos hbl]
      have hinv2 : TADispatchInv lang flag
          { st with results := st.results.set i [], done := st.done + 1 } (i + 1) := by
        obtain ⟨a, b, c⟩ := TADispatchInv_mono h (Nat.le_succ i)
        exact ⟨a, b, c⟩
      have := ih (i + 1) _ hinv2
      exact ⟨by omega, this.2⟩
    rw [if_neg hbl]
    obtain ⟨hd, hb, hc⟩ := h
    have hb1 : ∀ jt ∈ st.batch ++ [(i, p)], jt.1 ≤ i ∧ flag jt.1 = false := by
      intro jt hjt
      rcases List.mem_append.mp hjt with hjt | hjt
      · obtain ⟨a, b⟩ := hb jt hjt
        exact ⟨by omega, b⟩
      · simp only [List.mem_singleton] at hjt
        subst hjt
        exact ⟨le_rfl, hfalse⟩
    by_cases hsz : batchMaxParagraphs ≤ (st.batch ++ [(i, p)]).length
    · rw [if_pos hsz]
      have hinv2 := @dispatchBatch_inv lang provider total flag
        { st with batch := st.batch ++ [(i, p)] } i hd hb1 hc hfalse
      have := ih (i + 1) _ hinv2
      exact ⟨by omega, this.2⟩
    · rw [if_neg hsz]
      have hinv2 : TADispatchInv lang flag
          { st with batch := st.batch ++ [(i, p)] } (i + 1) := by
        refine ⟨?_, ?_, hc⟩
        · intro mc hmc
          obtain ⟨a, b, c⟩ := hd mc hmc
          exact ⟨a, by omega, c⟩
        · intro jt hjt
          obtain ⟨a, b⟩ := hb1 jt hjt
          exact ⟨by omega, b⟩
      have := ih (i + 1) _ hinv2
      exact ⟨by omega, this.2⟩

theorem flatMap_adj {α : Type} {xs : List α} {f : α → List Str} {x : α}
    {sub : List Str} (hx : x ∈ xs) (h : ∃ l1 l2, f x = l1 ++ sub ++ l2) :
    ∃ l1 l2, xs.flatMap f = l1 ++ sub ++ l2 := by
  induction xs with
  | nil => simp at hx
  | cons hd tl ih =>
    rcases List.mem_cons.mp hx with hx | hx
    · subst hx
      obtain ⟨l1, l2, hf⟩ := h
      exact ⟨l1, l2 ++ tl.flatMap f, by simp [hf]⟩
    · obtain ⟨l1, l2, hf⟩ := ih hx
      exact ⟨f hd ++ l1, l2, by simp [hf]⟩

/-! ## Claim theorems -/

/-- **C1 (counterexample).** The claim states every page produced by
`_reflow` consists of exactly `viewportHeight` (= the chunking page height)
display lines, including the last page.  It fails: a chapter with a single
short paragraph reflows (at fallback dimensions 72×20, page height 20) to a
single final page holding just 1 line — the chunking loop's last slice is
not padded.  (Padding to the viewport happens later, in `_render_page`.) -/
theorem claim_C1_counterexample :
    ¬(∀ pg ∈ (reflow (some ⟨[], [['字']]⟩) 72 20 1 false false [] []).1,
        pg.length = max 3 (getContentDimensions 72 20).2) := by
  decide

/-- **C1 (amended).** For every non-empty chapter, every page produced by
`_reflow` except possibly the last has exactly `page_height = max(3,
content_h)` lines; the last page has between 1 and `page_height` lines; and
the single-page renderer pads every page back up to exactly `content_h`
display lines. -/
theorem claim_C1_amended (ch : Chapter) (rawW rawH lineSpacing : Nat)
    (dualMode translateMode : Bool) (cache : Cache) (lang : Str)
    (hne : ch.paragraphs ≠ []) :
    (reflow (some ch) rawW rawH lineSpacing dualMode translateMode cache lang).1 ≠ [] ∧
    (∀ pg ∈ ((reflow (some ch) rawW rawH lineSpacing dualMode translateMode cache lang).1).dropLast,
        pg.length = max 3 (getContentDimensions rawW rawH).2) ∧
    (∀ pg ∈ (reflow (some ch) rawW rawH lineSpacing dualMode translateMode cache lang).1,
        1 ≤ pg.length ∧ pg.length ≤ max 3 (getContentDimensions rawW rawH).2) ∧
    (∀ pg ∈ (reflow (some ch) rawW rawH lineSpacing dualMode translateMode cache lang).1,
        (renderPageSingle pg (getContentDimensions rawW rawH).2).length =
          (getContentDimensions rawW rawH).2) := by
  rcases hps : ch.paragraphs with _ | ⟨p, rest⟩
  · exact absurd hps hne
  have hh3 := getContentDimensions_height rawW rawH
  rcases hd : getContentDimensions rawW rawH with ⟨cw, chh⟩
  rw [hd] at hh3
  simp only at hh3
  have hmax : max 3 chh = chh := by omega
  simp only [reflow, hd, hmax]
  set pw := effectivePageWidth dualMode cw with hpw
  rcases hwc : wrapChapter ch pw lineSpacing translateMode cache lang with ⟨allLines, ltp⟩
  have hlines : allLines ≠ [] := by
    have := wrapChapterAux_ne_nil pw lineSpacing translateMode cache lang 0 p rest
    rw [← hps] at this
    simp only [wrapChapter] at hwc
    rw [hwc] at this
    exact this
  rcases hal : allLines with _ | ⟨l0, ls0⟩
  · exact absurd hal hlines
  rcases hck : chunkPagesAux chh (l0 :: ls0) ltp with ⟨pages, ranges⟩
  have hpne : pages ≠ [] := by
    have := chunkPagesAux_fst_ne_nil chh l0 ls0 ltp
    rw [hck] at this
    exact this
  have hlen := chunkPagesAux_pages_len chh (by omega) (l0 :: ls0) ltp
  rw [hck] at hlen
  simp only at hlen
  simp only [hck, if_neg hpne]
  refine ⟨hpne, hlen.2, hlen.1, ?_⟩
  intro pg hpg
  exact renderPageSingle_length pg chh ((hlen.1 pg hpg).2)

/-- Witness for the amended C1 at a concrete chapter and viewport. -/
theorem claim_C1_amended_witness :
    (Chapter.mk [] [['h', 'i'], ['y', 'o']]).paragraphs ≠ [] ∧
    ((reflow (some ⟨[], [['h', 'i'], ['y', 'o']]⟩) 20 3 1 false false [] []).1 ≠ [] ∧
     (∀ pg ∈ ((reflow (some ⟨[], [['h', 'i'], ['y', 'o']]⟩) 20 3 1 false false [] []).1).dropLast,
         pg.length = max 3 (getContentDimensions 20 3).2) ∧
     (∀ pg ∈ (reflow (some ⟨[], [['h', 'i'], ['y', 'o']]⟩) 20 3 1 false false [] []).1,
         1 ≤ pg.length ∧ pg.length ≤ max 3 (getContentDimensions 20 3).2) ∧
     (∀ pg ∈ (reflow (some ⟨[], [['h', 'i'], ['y', 'o']]⟩) 20 3 1 false false [] []).1,
         (renderPageSingle pg (getContentDimensions 20 3).2).length =
           (getContentDimensions 20 3).2)) :=
  ⟨by decide,
   claim_C1_amended ⟨[], [['h', 'i'], ['y', 'o']]⟩ 20 3 1 false false [] [] (by decide)⟩

/-- **C2.** For every chapter with at least one paragraph, the per-page
paragraph ranges produced by `_reflow` are inclusive `[start, end]` pairs
(`start ≤ end`), the sequence of ranges is monotonically non-decreasing
across pages in both components, and together the ranges cover every
paragraph index `0..n-1` of the chapter at least once. -/
theorem claim_C2_paragraph_ranges (ch : Chapter) (rawW rawH lineSpacing : Nat)
    (dualMode translateMode : Bool) (cache : Cache) (lang : Str)
    (hne : ch.paragraphs ≠ []) :
    (∀ r ∈ (reflow (some ch) rawW rawH lineSpacing dualMode translateMode cache lang).2,
       r.1 ≤ r.2) ∧
    List.Pairwise (fun a b => a.1 ≤ b.1 ∧ a.2 ≤ b.2)
      ((reflow (some ch) rawW rawH lineSpacing dualMode translateMode cache lang).2) ∧
    (∀ p, p < ch.paragraphs.length →
       ∃ r ∈ (reflow (some ch) rawW rawH lineSpacing dualMode translateMode cache lang).2,
         r.1 ≤ p ∧ p ≤ r.2) := by
  rcases hps : ch.paragraphs with _ | ⟨p0, rest⟩
  · exact absurd hps hne
  have hh3 := getContentDimensions_height rawW rawH
  rcases hd : getContentDimensions rawW rawH with ⟨cw, chh⟩
  rw [hd] at hh3
  simp only at hh3
  simp only [reflow, hd]
  set pw := effectivePageWidth dualMode cw with hpw
  rcases hwc : wrapChapter ch pw lineSpacing translateMode cache lang with ⟨allLines, ltp⟩
  have hwc2 : wrapChapterAux pw lineSpacing translateMode cache lang 0 ch.paragraphs =
      (allLines, ltp) := hwc
  have hleneq : allLines.length = ltp.length := by
    have := wrapChapterAux_length_eq pw lineSpacing translateMode cache lang 0 ch.paragraphs
    rw [hwc2] at this
    exact this
  have hltp := wrapChapterAux_ltp pw lineSpacing translateMode cache lang ch.paragraphs 0
  rw [hwc2] at hltp
  simp only at hltp
  obtain ⟨hpair, _, hcov⟩ := hltp
  have hlines : allLines ≠ [] := by
    have := wrapChapterAux_ne_nil pw lineSpacing translateMode cache lang 0 p0 rest
    rw [← hps, hwc2] at this
    exact this
  rcases hal : allLines with _ | ⟨l0, ls0⟩
  · exact absurd hal hlines
  rw [hal] at hleneq
  have hrgs := chunkPagesGo_ranges (max 3 chh) (by omega) (l0 :: ls0).length
    (l0 :: ls0) ltp le_rfl hleneq hpair
  have hchq : chunkPagesAux (max 3 chh) (l0 :: ls0) ltp =
      chunkPagesGo (max 3 chh) (l0 :: ls0).length (l0 :: ls0) ltp := rfl
  rcases hck : chunkPagesGo (max 3 chh) (l0 :: ls0).length (l0 :: ls0) ltp
    with ⟨pages, ranges⟩
  rw [hck] at hrgs
  simp only at hrgs
  obtain ⟨hmem, hpw2, hcov2⟩ := hrgs
  have hpne : pages ≠ [] := by
    have := chunkPagesAux_fst_ne_nil (max 3 chh) l0 ls0 ltp
    rw [hchq, hck] at this
    exact this
  simp only [hchq, hck, if_neg hpne]
  refine ⟨fun r hr => (hmem r hr).1, hpw2, ?_⟩
  intro p hp
  rw [← hps] at hp
  have hpm : (0 + p) ∈ ltp := hcov p hp
  rw [Nat.zero_add] at hpm
  exact hcov2 p hpm

/-- Witness for C2 at a concrete two-paragraph chapter. -/
theorem claim_C2_paragraph_ranges_witness :
    (Chapter.mk [] [['字'], ['典']]).paragraphs ≠ [] ∧
    ((∀ r ∈ (reflow (some ⟨[], [['字'], ['典']]⟩) 20 3 1 false false [] []).2,
        r.1 ≤ r.2) ∧
     List.Pairwise (fun a b => a.1 ≤ b.1 ∧ a.2 ≤ b.2)
       ((reflow (some ⟨[], [['字'], ['典']]⟩) 20 3 1 false false [] []).2) ∧
     (∀ p, p < (Chapter.mk [] [['字'], ['典']]).paragraphs.length →
        ∃ r ∈ (reflow (some ⟨[], [['字'], ['典']]⟩) 20 3 1 false false [] []).2,
          r.1 ≤ p ∧ p ≤ r.2)) :=
  ⟨by decide,
   claim_C2_paragraph_ranges ⟨[], [['字'], ['典']]⟩ 20 3 1 false false [] [] (by decide)⟩

/-- **C3.** For every input list of `N` paragraphs, `translate_batch` returns
exactly `N` translations in the same order as the input: slot `i` holds `""`
for a whitespace-only paragraph, the cached text for a cache hit, and for the
`j`-th cache miss (in input order, at original index `uncached_indices[j]`)
the `j`-th segment of the batched call; in particular every miss past the raw
segment count resolves to `""` (fewer segments than requested ⇒ the missing
entries become `""`), and the segment list always has exactly the requested
length (more segments ⇒ the extras are dropped). -/
theorem claim_C3_length_preservation (cache : Cache) (lang : Str)
    (provider : Str → Str) (paras : List Str) :
    ((translateBatch cache lang provider paras).1).length = paras.length ∧
    (∀ i, i < paras.length → pyStrip (paras.getD i []) = [] →
       ((translateBatch cache lang provider paras).1).getD i ['x'] = []) ∧
    (∀ i c, i < paras.length → ¬pyStrip (paras.getD i []) = [] →
       getCached cache lang (paras.getD i []) = some c →
       ((translateBatch cache lang provider paras).1).getD i ['x'] = c) ∧
    (∀ j, j < ((classifyParas cache lang 0 paras).2.1).length →
       ((translateBatch cache lang provider paras).1).getD
           (((classifyParas cache lang 0 paras).2.1).getD j 0) ['x'] =
         (callApiBatch provider ((classifyParas cache lang 0 paras).2.2)).getD j []) ∧
    (∀ j, j < ((classifyParas cache lang 0 paras).2.1).length →
       ((splitDashes (provider (joinSep batchSeparator
           ((classifyParas cache lang 0 paras).2.2)))).map pyStrip).length ≤ j →
       ((translateBatch cache lang provider paras).1).getD
           (((classifyParas cache lang 0 paras).2.1).getD j 0) ['x'] = []) ∧
    (∀ texts : List Str, (callApiBatch provider texts).length = texts.length ∧
       ∀ j, ((splitDashes (provider (joinSep batchSeparator texts))).map
           pyStrip).length ≤ j →
         (callApiBatch provider texts).getD j [] = []) := by
  rcases hc : classifyParas cache lang 0 paras with ⟨rs, idxs, txts⟩
  have hlen : rs.length = paras.length := by
    have := classifyParas_results_length cache lang 0 paras
    rw [hc] at this
    exact this
  have hrd : ∀ k, k < paras.length → rs.getD k none =
      (if pyStrip (paras.getD k []) = [] then some []
       else getCached cache lang (paras.getD k [])) := by
    intro k hk
    have := classifyParas_results_getD cache lang paras 0 k hk
    rw [hc] at this
    exact this
  have hmemchar : ∀ x ∈ idxs, ∃ k, k < paras.length ∧ x = k ∧
      ¬pyStrip (paras.getD k []) = [] ∧
      getCached cache lang (paras.getD k []) = none := by
    intro x hx
    obtain ⟨k, hk, hxk, hnb, hnc⟩ := classifyParas_idxs_mem cache lang paras 0 x
      (by rw [hc]; exact hx)
    exact ⟨k, hk, by omega, hnb, hnc⟩
  have hsorted : List.Pairwise (· < ·) idxs := by
    have := (classifyParas_idxs_sorted cache lang paras 0).1
    rw [hc] at this
    exact this
  have hnotmem : ∀ i, i < paras.length →
      (pyStrip (paras.getD i []) = [] ∨
        (getCached cache lang (paras.getD i [])).isSome = true) → i ∉ idxs := by
    intro i _ hcase hmem
    obtain ⟨k, _, hik, hnb, hnc⟩ := hmemchar i hmem
    subst hik
    rcases hcase with hcase | hcase
    · exact hnb hcase
    · rw [hnc] at hcase
      simp at hcase
  have hlen2 : idxs.length = txts.length := by
    have := (classifyParas_misses cache lang paras 0).1
    rw [hc] at this
    exact this
  have hcab : ∀ texts : List Str,
      (callApiBatch provider texts).length = texts.length ∧
      ∀ j, ((splitDashes (provider (joinSep batchSeparator texts))).map
          pyStrip).length ≤ j →
        (callApiBatch provider texts).getD j [] = [] :=
    fun texts => ⟨callApiBatch_length provider texts,
      fun j hj => callApiBatch_getD_nil provider texts j hj⟩
  simp only [translateBatch, hc]
  by_cases hempty : txts = []
  · rw [if_pos hempty]
    simp only
    have hidxnil : idxs = [] := List.length_eq_zero.mp (by rw [hlen2, hempty]; rfl)
    refine ⟨by simp [hlen], ?_, ?_, ?_, ?_, hcab⟩
    · intro i hi hbl
      rw [getD_map_of_lt _ rs (by omega) ['x'] none, hrd i hi, if_pos hbl]
      rfl
    · intro i cc hi hbl hgc
      rw [getD_map_of_lt _ rs (by omega) ['x'] none, hrd i hi, if_neg hbl, hgc]
      rfl
    · intro j hj
      rw [hidxnil] at hj
      simp at hj
    · intro j hj
      rw [hidxnil] at hj
      simp at hj
  · rw [if_neg hempty]
    simp only
    have hwl : ((writeBack lang paras (callApiBatch provider txts) idxs 0 rs
        cache).1).length = paras.length := by
      rw [writeBack_results_length, hlen]
    have hbound : ∀ x ∈ idxs, x < rs.length := by
      intro x hx
      obtain ⟨k, hk, hxk, _, _⟩ := hmemchar x hx
      omega
    refine ⟨by simp [hwl], ?_, ?_, ?_, ?_, hcab⟩
    · intro i hi hbl
      rw [getD_map_of_lt _ _ (by omega) ['x'] none,
        writeBack_results_getD_not_mem lang paras _ idxs 0 rs cache i none
          (hnotmem i hi (Or.inl hbl)),
        hrd i hi, if_pos hbl]
      rfl
    · intro i cc hi hbl hgc
      rw [getD_map_of_lt _ _ (by omega) ['x'] none,
        writeBack_results_getD_not_mem lang paras _ idxs 0 rs cache i none
          (hnotmem i hi (Or.inr (by rw [hgc]; rfl))),
        hrd i hi, if_neg hbl, hgc]
      rfl
    · intro j hj
      have hx : idxs.getD j 0 ∈ idxs := by
        rw [List.getD_eq_getElem?_getD, List.getElem?_eq_getElem hj]
        exact List.getElem_mem hj
      have hxb : idxs.getD j 0 < paras.length := by
        have := hbound _ hx
        omega
      rw [getD_map_of_lt _ _ (by omega) ['x'] none,
        writeBack_results_getD_at lang paras _ idxs 0 rs cache j hsorted hbound hj]
      simp
    · intro j hj hraw
      have hx : idxs.getD j 0 ∈ idxs := by
        rw [List.getD_eq_getElem?_getD, List.getElem?_eq_getElem hj]
        exact List.getElem_mem hj
      have hxb : idxs.getD j 0 < paras.length := by
        have := hbound _ hx
        omega
      rw [getD_map_of_lt _ _ (by omega) ['x'] none,
        writeBack_results_getD_at lang paras _ idxs 0 rs cache j hsorted hbound hj,
        Nat.zero_add, callApiBatch_getD_nil provider txts j hraw]
      rfl

/-- Witness for C3: a blank, a hit, and two misses against a provider that
returns a single segment — the first miss gets the segment, the second
resolves to `""`. -/
theorem claim_C3_length_preservation_witness :
    ((translateBatch [((['a'], []), ['T'])] [] (fun _ => ['X'])
        [[' '], ['a'], ['b'], ['c']]).1).getD 0 ['x'] = [] ∧
    ((translateBatch [((['a'], []), ['T'])] [] (fun _ => ['X'])
        [[' '], ['a'], ['b'], ['c']]).1).getD 1 ['x'] = ['T'] ∧
    ((translateBatch [((['a'], []), ['T'])] [] (fun _ => ['X'])
        [[' '], ['a'], ['b'], ['c']]).1).getD
        (((classifyParas [((['a'], []), ['T'])] [] 0
            [[' '], ['a'], ['b'], ['c']]).2.1).getD 0 0) ['x'] =
      (callApiBatch (fun _ => ['X'])
          ((classifyParas [((['a'], []), ['T'])] [] 0
              [[' '], ['a'], ['b'], ['c']]).2.2)).getD 0 [] ∧
    ((translateBatch [((['a'], []), ['T'])] [] (fun _ => ['X'])
        [[' '], ['a'], ['b'], ['c']]).1).getD
        (((classifyParas [((['a'], []), ['T'])] [] 0
            [[' '], ['a'], ['b'], ['c']]).2.1).getD 1 0) ['x'] = [] := by
  have h := claim_C3_length_preservation [((['a'], []), ['T'])] []
    (fun _ => ['X']) [[' '], ['a'], ['b'], ['c']]
  exact ⟨h.2.1 0 (by decide) (by decide),
    h.2.2.1 1 ['T'] (by decide) (by decide) (by decide),
    h.2.2.2.1 0 (by decide),
    h.2.2.2.2.1 1 (by decide) (by decide)⟩

/-- **C4.** For every paragraph text and every column width of at least 2
(the paginator itself only passes widths ≥ 20), every line produced by
`_wrap_cjk` has display width (wide glyph = 2, other = 1) at most that
width; moreover on the CJK/mixed path the concatenation of the output lines
is the input with only space characters removed (each removed space being
the single leading space dropped at a break point). -/
theorem claim_C4_wrap_width_bound (text : Str) (width : Nat) (h2 : 2 ≤ width) :
    (∀ l ∈ wrapCjk text width, displayWidth l ≤ width) ∧
    (text.all isAsciiChar = false → ¬pyStrip text = [] →
      ((wrapCjk text width).flatten.Sublist text ∧
       (wrapCjk text width).flatten.filter (fun c => ¬c = ' ') =
         text.filter (fun c => ¬c = ' '))) := by
  constructor
  · intro l hl
    simp only [wrapCjk] at hl
    split at hl
    · simp at hl
      simp [hl, displayWidth_nil]
    · split at hl
      · rename_i hascii
        rcases hw : textwrapWrap text width with _ | ⟨a, as⟩
        · rw [hw] at hl
          simp at hl
          simp [hl, displayWidth_nil]
        · rw [hw] at hl
          simp only at hl
          have hmem : l ∈ textwrapWrap text width := by rw [hw]; exact hl
          have hlen : l.length ≤ width := by
            have := fillWords_length_le width (splitWords text) [] (by simp)
            exact this l hmem
          have hchars : ∀ c ∈ l, charWidth c = 1 := by
            intro c hc
            rcases fillWords_chars width (splitWords text) [] l hmem c hc with
              h | h | ⟨w1, hw1, hcw⟩
            · subst h
              exact charWidth_of_ascii (by decide)
            · simp at h
            · have : c ∈ text := splitWords_chars w1 hw1 c hcw
              exact charWidth_of_ascii (List.all_eq_true.mp hascii c this)
          rw [displayWidth_eq_length hchars]
          exact hlen
      · rcases hw : wrapLoop width text [] 0 with _ | ⟨a, as⟩
        · rw [hw] at hl
          simp at hl
          simp [hl, displayWidth_nil]
        · rw [hw] at hl
          simp only at hl
          have hmem : l ∈ wrapLoop width text [] 0 := by rw [hw]; exact hl
          have h0 : (0 : Nat) = displayWidth [] := rfl
          have := wrapLoop_width_le h2 text [] (by simp [displayWidth_nil])
          rw [← h0] at this
          exact this l hmem
  · intro hna hns
    have hcond : ¬(text.all isAsciiChar = true) := by simp [hna]
    simp only [wrapCjk, if_neg hns, if_neg hcond]
    rcases hw : wrapLoop width text [] 0 with _ | ⟨a, as⟩
    · refine ⟨by simp, ?_⟩
      have := wrapLoop_flatten_filter width text [] 0
      rw [hw] at this
      simpa using this
    · constructor
      · have := wrapLoop_flatten_sublist width text [] 0
        rw [hw] at this
        simpa using this
      · have := wrapLoop_flatten_filter width text [] 0
        rw [hw] at this
        simpa using this

/-- Witness for C4 at a concrete CJK text and width. -/
theorem claim_C4_wrap_width_bound_witness :
    2 ≤ 4 ∧
    ((∀ l ∈ wrapCjk ['字', ' ', '典'] 4, displayWidth l ≤ 4) ∧
     (['字', ' ', '典'].all isAsciiChar = false → ¬pyStrip ['字', ' ', '典'] = [] →
       ((wrapCjk ['字', ' ', '典'] 4).flatten.Sublist ['字', ' ', '典'] ∧
        (wrapCjk ['字', ' ', '典'] 4).flatten.filter (fun c => ¬c = ' ') =
          ['字', ' ', '典'].filter (fun c => ¬c = ' ')))) :=
  ⟨by decide, claim_C4_wrap_width_bound ['字', ' ', '典'] 4 (by decide)⟩

/-- **C10.** When `translate_batch` completes with the provider having
returned fewer segments than there were cache misses, every unfilled miss is
written to the cache with `""` as its translated text (the miss at position
`j` past the raw segment count ends up cached as `""`); afterwards every
paragraph of the batch is blank or cached — a subsequent `translate_batch`
on the same paragraphs finds no miss, so it issues no remote call, and
`get_cached` returns the empty string for the unfilled ones: the paragraph is
never retried. -/
theorem claim_C10_empty_cached_never_retried (cache : Cache) (lang : Str)
    (provider : Str → Str) (paras : List Str) :
    (∀ j, ((splitDashes (provider (joinSep batchSeparator
          (classifyParas cache lang 0 paras).2.2))).map pyStrip).length ≤ j →
        j < ((classifyParas cache lang 0 paras).2.2).length →
        getCached (translateBatch cache lang provider paras).2 lang
          (((classifyParas cache lang 0 paras).2.2).getD j []) = some []) ∧
    (classifyParas (translateBatch cache lang provider paras).2 lang 0 paras).2.2
      = [] := by
  rcases hcl : classifyParas cache lang 0 paras with ⟨rs, idxs, txts⟩
  simp only [translateBatch, hcl]
  have hmiss := classifyParas_misses cache lang paras 0
  rw [hcl] at hmiss
  simp only at hmiss
  obtain ⟨hlen, hcor, hmem⟩ := hmiss
  by_cases hempty : txts = []
  · subst hempty
    rw [if_pos rfl]
    simp only
    constructor
    · intro j _ hjlt
      simp at hjlt
    · rw [hcl]
  · rw [if_neg hempty]
    simp only
    constructor
    · intro j hjraw hjlt
      obtain ⟨k, hk, hidx, hval⟩ := hcor j (by omega)
      have htext : paras.getD (idxs.getD j 0) [] = txts.getD j [] := by
        rw [hidx, Nat.zero_add]
        exact hval
      have hlk : cacheLookup
          (writeBack lang paras (callApiBatch provider txts) idxs 0 rs cache).2
          (txts.getD j []) lang = some [] := by
        apply writeBack_lookup_final_nil lang paras (callApiBatch provider txts)
          idxs 0 rs cache (txts.getD j []) j (by omega) htext
        intro q hq hql
        rw [Nat.zero_add]
        exact callApiBatch_getD_nil provider txts q (by omega)
      simp only [getCached]
      split
      · rfl
      · exact hlk
    · apply classifyParas_no_miss
      intro p hp
      by_cases hblank : pyStrip p = []
      · exact Or.inl hblank
      · refine Or.inr ?_
        have hgc : getCached
            (writeBack lang paras (callApiBatch provider txts) idxs 0 rs cache).2
            lang p = cacheLookup
            (writeBack lang paras (callApiBatch provider txts) idxs 0 rs cache).2
            p lang := by
          simp [getCached, hblank]
        rw [hgc]
        rcases hget : getCached cache lang p with _ | c
        · have hpmem : p ∈ txts := hmem p hp hblank hget
          obtain ⟨n, hn⟩ := List.mem_iff_get.mp hpmem
          have hjt : txts.getD n.val [] = p := by
            rw [List.getD_eq_getElem?_getD]
            simp [List.getElem?_eq_getElem n.isLt, List.get_eq_getElem] at hn ⊢
            exact hn
          obtain ⟨k, hk, hidx, hval⟩ := hcor n.val (by have := n.isLt; omega)
          apply writeBack_lookup_some
          refine Or.inr ⟨n.val, by have := n.isLt; omega, ?_⟩
          rw [hidx, Nat.zero_add, hval, hjt]
        · have hlk : (cacheLookup cache p lang).isSome = true := by
            simp only [getCached, if_neg hblank] at hget
            rw [hget]
            rfl
          exact writeBack_lookup_some lang paras _ idxs 0 rs cache p (Or.inl hlk)

/-- Witness for C10: two misses, a provider returning a single segment — the
second miss is cached as `""` and the re-classification finds no miss. -/
theorem claim_C10_empty_cached_never_retried_witness :
    (((splitDashes ((fun _ => ['X']) (joinSep batchSeparator
          (classifyParas [] [] 0 [['a'], ['b']]).2.2))).map pyStrip).length ≤ 1 ∧
     1 < ((classifyParas [] [] 0 [['a'], ['b']]).2.2).length ∧
     getCached (translateBatch [] [] (fun _ => ['X']) [['a'], ['b']]).2 []
       (((classifyParas [] [] 0 [['a'], ['b']]).2.2).getD 1 []) = some []) ∧
    (classifyParas (translateBatch [] [] (fun _ => ['X']) [['a'], ['b']]).2 []
      0 [['a'], ['b']]).2.2 = [] := by
  have h := claim_C10_empty_cached_never_retried [] [] (fun _ => ['X']) [['a'], ['b']]
  exact ⟨⟨by decide, by decide, h.1 1 (by decide) (by decide)⟩, h.2⟩

/-- **C5 (counterexample).** The claim states the provider's response is
split on the same reserved separator sequence (`"\n---\n"`) that joined the
request, so that a provider returning the requested translations joined by
that separator hands each miss exactly its own segment.  But
`_call_api_batch` splits on the bare `"---"`: when the provider returns the
two requested translations `"1---2"` and `"3"` joined by the reserved
separator, the code hands the misses `"1"` and `"2"` instead. -/
theorem claim_C5_counterexample :
    callApiBatch
        (fun _ => joinSep batchSeparator [['1', '-', '-', '-', '2'], ['3']])
        [['a'], ['b']] = [['1'], ['2']] ∧
    ([['1'], ['2']] : List Str) ≠ [['1', '-', '-', '-', '2'], ['3']] := by
  refine ⟨by decide, by decide⟩

/-- **C5 (amended).** Cache-miss paragraphs are joined with the reserved
separator `"\n---\n"` into a single request, but the response is split on the
bare `"---"` with each part whitespace-stripped; whenever the provider
returns exactly the requested number of translations, each free of `"---"`
and without leading or trailing whitespace, joined by the reserved separator,
each miss receives exactly its own segment. -/
theorem claim_C5_amended (texts ts : List Str)
    (hlen : ts.length = texts.length)
    (hcond : ∀ t ∈ ts, hasTripleDash t = false ∧ pyStrip t = t) :
    callApiBatch (fun _ => joinSep batchSeparator ts) texts = ts := by
  by_cases hempty : ts = []
  · subst hempty
    have htx : texts = [] := List.length_eq_zero.mp (by simpa using hlen.symm)
    subst htx
    decide
  · have hsj := splitJoin ts hempty hcond
    simp only [callApiBatch, hsj, hlen, lt_irrefl, if_false]
    rw [← hlen]
    exact List.take_length ts

/-- Witness for the amended C5: two misses, two clean translations. -/
theorem claim_C5_amended_witness :
    ([['x'], ['y']] : List Str).length = ([['a'], ['b']] : List Str).length ∧
    (∀ t ∈ ([['x'], ['y']] : List Str),
       hasTripleDash t = false ∧ pyStrip t = t) ∧
    callApiBatch (fun _ => joinSep batchSeparator [['x'], ['y']])
      [['a'], ['b']] = [['x'], ['y']] :=
  ⟨by decide, by decide,
   claim_C5_amended [['a'], ['b']] [['x'], ['y']] (by decide) (by decide)⟩

/-- **C6.** In every run of `translate_all` under a monotone cancellation
flag set (at the latest) at loop index `i0`: every dispatched chunk —
including the trailing partial one — was dispatched at a moment where the
flag read `false`, hence strictly before `i0`, and consists only of
paragraphs enqueued while the flag read `false` (so no chunk is dispatched
once the flag is observed set); and every paragraph of every dispatched
chunk has a row in the final cache (already-dispatched calls complete and
their results are cached). -/
theorem claim_C6_cancellation_monotone (cache : Cache) (lang : Str)
    (provider : Nat → Str → Str) (flag : Nat → Bool) (paras : List Str) (i0 : Nat)
    (hmono : ∀ a b : Nat, a ≤ b → flag a = true → flag b = true)
    (hset : flag i0 = true) :
    (∀ mc ∈ (translateAll cache lang provider flag paras).2.2,
       mc.1 < i0 ∧ flag mc.1 = false ∧
       ∀ jt ∈ mc.2, jt.1 < i0 ∧ flag jt.1 = false) ∧
    (∀ mc ∈ (translateAll cache lang provider flag paras).2.2, ∀ jt ∈ mc.2,
       (cacheLookup (translateAll cache lang provider flag paras).2.1 jt.2 lang).isSome
         = true) := by
  have hlt : ∀ x, flag x = false → x < i0 := by
    intro x hx
    by_contra hcon
    push_neg at hcon
    rw [hmono i0 x hcon hset] at hx
    simp at hx
  rcases htl : taLoop lang provider flag paras.length paras 0
      ⟨paras.map (fun p => (getCached cache lang p).getD []),
       (paras.filter (fun p => (getCached cache lang p).isSome)).length,
       [], cache, 0, [],
       [((paras.filter (fun p => (getCached cache lang p).isSome)).length,
         paras.length)]⟩
    with ⟨e, st⟩
  have hinv0 : TADispatchInv lang flag
      ⟨paras.map (fun p => (getCached cache lang p).getD []),
       (paras.filter (fun p => (getCached cache lang p).isSome)).length,
       [], cache, 0, [],
       [((paras.filter (fun p => (getCached cache lang p).isSome)).length,
         paras.length)]⟩ 0 := by
    refine ⟨?_, ?_, ?_⟩ <;> simp
  have hres := taLoop_inv lang provider flag paras.length paras 0 _ hinv0
  rw [htl] at hres
  simp only at hres
  obtain ⟨-, hd, hb, hc⟩ := hres
  simp only [translateAll, htl]
  by_cases hcond : st.batch ≠ [] ∧ flag e = false
  · rw [if_pos hcond]
    simp only
    have hinv1 := @dispatchBatch_inv lang provider paras.length flag st e hd
      (fun jt hjt => ⟨le_of_lt (hb jt hjt).1, (hb jt hjt).2⟩) hc hcond.2
    obtain ⟨hd1, _, hc1⟩ := hinv1
    constructor
    · intro mc hmc
      obtain ⟨hflag, _, hjts⟩ := hd1 mc hmc
      exact ⟨hlt mc.1 hflag, hflag,
        fun jt hjt => ⟨hlt jt.1 (hjts jt hjt).2, (hjts jt hjt).2⟩⟩
    · exact hc1
  · rw [if_neg hcond]
    simp only
    constructor
    · intro mc hmc
      obtain ⟨hflag, _, hjts⟩ := hd mc hmc
      exact ⟨hlt mc.1 hflag, hflag,
        fun jt hjt => ⟨hlt jt.1 (hjts jt hjt).2, (hjts jt hjt).2⟩⟩
    · exact hc

/-- Witness for C6: three paragraphs, flag set from index 2 onwards. -/
theorem claim_C6_cancellation_monotone_witness :
    (∀ a b : Nat, a ≤ b → decide (2 ≤ a) = true → decide (2 ≤ b) = true) ∧
    decide (2 ≤ 2) = true ∧
    ((∀ mc ∈ (translateAll [] [] (fun _ _ => ['X']) (fun i => decide (2 ≤ i))
         [['a'], ['b'], ['c']]).2.2,
        mc.1 < 2 ∧ (fun i => decide (2 ≤ i)) mc.1 = false ∧
        ∀ jt ∈ mc.2, jt.1 < 2 ∧ (fun i => decide (2 ≤ i)) jt.1 = false) ∧
     (∀ mc ∈ (translateAll [] [] (fun _ _ => ['X']) (fun i => decide (2 ≤ i))
         [['a'], ['b'], ['c']]).2.2, ∀ jt ∈ mc.2,
        (cacheLookup (translateAll [] [] (fun _ _ => ['X'])
            (fun i => decide (2 ≤ i)) [['a'], ['b'], ['c']]).2.1 jt.2 []).isSome
          = true)) :=
  ⟨fun a b hab ha => by
      simp only [decide_eq_true_eq] at ha ⊢
      omega,
   by decide,
   claim_C6_cancellation_monotone [] [] (fun _ _ => ['X'])
     (fun i => decide (2 ≤ i)) [['a'], ['b'], ['c']] 2
     (fun a b hab ha => by
       simp only [decide_eq_true_eq] at ha ⊢
       omega)
     (by decide)⟩

/-- **C7 (counterexample).** The claim states that when the translated count
equals the total, export succeeds and every paragraph's original text is
followed by its translated line.  The count treats a paragraph as translated
as soon as a cache row for it exists — even a row whose translated text is
`""` (which `translate_batch` writes whenever the provider returns too few
segments).  With the single paragraph `"a"` cached as `""`, export succeeds
at 1/1, yet the produced document contains no translated line at all:
`_do_export`'s `if cached:` drops the empty translation. -/
theorem claim_C7_counterexample :
    actionExportBilingual (some ⟨[⟨[], [['a']]⟩]⟩) [((['a'], []), [])] [] =
      ExportOutcome.exported (doExportParts ⟨[⟨[], [['a']]⟩]⟩ [((['a'], []), [])] []) ∧
    ['a'] ∈ doExportParts ⟨[⟨[], [['a']]⟩]⟩ [((['a'], []), [])] [] ∧
    (doExportParts ⟨[⟨[], [['a']]⟩]⟩ [((['a'], []), [])] []).all
      (fun p => !(List.isPrefixOf transMarker p)) = true := by
  refine ⟨by decide, by decide, by decide⟩

/-- **C7 (amended).** Export is permitted only when every paragraph of the
book counts as translated: below the total, `action_export_bilingual` fails
with the incompleteness signal carrying `(done, total)` and writes nothing;
at `done = total` it succeeds, and every paragraph whose cached translation
is non-empty is immediately followed in the document by its translated
line. -/
theorem claim_C7_amended (content : BookContent) (cache : Cache) (lang : Str) :
    (countTranslated cache lang (content.chapters.flatMap (fun ch => ch.paragraphs)) <
        (content.chapters.flatMap (fun ch => ch.paragraphs)).length →
      actionExportBilingual (some content) cache lang =
        ExportOutcome.incomplete
          (countTranslated cache lang (content.chapters.flatMap (fun ch => ch.paragraphs)))
          (content.chapters.flatMap (fun ch => ch.paragraphs)).length) ∧
    (countTranslated cache lang (content.chapters.flatMap (fun ch => ch.paragraphs)) =
        (content.chapters.flatMap (fun ch => ch.paragraphs)).length →
      actionExportBilingual (some content) cache lang =
        ExportOutcome.exported (doExportParts content cache lang) ∧
      ∀ ch ∈ content.chapters, ∀ para ∈ ch.paragraphs, ∀ c,
        getCached cache lang para = some c → ¬c = [] →
        ∃ l1 l2, doExportParts content cache lang =
          l1 ++ [para, transMarker ++ c] ++ l2) := by
  constructor
  · intro hlt
    simp only [actionExportBilingual, if_pos hlt]
  · intro heq
    refine ⟨by simp only [actionExportBilingual, heq, lt_irrefl, if_false], ?_⟩
    intro ch hch para hpara c hc hcne
    simp only [doExportParts]
    have hinner : ∃ l1 l2, ch.paragraphs.flatMap (fun para =>
        [para] ++
        (match getCached cache lang para with
         | some c => if c = [] then [] else [transMarker ++ c]
         | none => []) ++
        [[]]) = l1 ++ [para, transMarker ++ c] ++ l2 := by
      refine flatMap_adj hpara ⟨[], [[]], ?_⟩
      rw [hc]
      simp [hcne]
    obtain ⟨l1, l2, hin⟩ := hinner
    refine flatMap_adj hch
      ⟨[List.replicate 60 '=', ch.title, List.replicate 60 '=' ++ ['\n']] ++ l1, l2, ?_⟩
    rw [hin]
    simp

/-- Witness for the amended C7: a fully translated single-paragraph book
exports with the paragraph followed by its translated line. -/
theorem claim_C7_amended_witness :
    actionExportBilingual (some ⟨[⟨[], [['a']]⟩]⟩) [((['a'], []), ['X'])] [] =
      ExportOutcome.exported (doExportParts ⟨[⟨[], [['a']]⟩]⟩ [((['a'], []), ['X'])] []) ∧
    ∃ l1 l2, doExportParts ⟨[⟨[], [['a']]⟩]⟩ [((['a'], []), ['X'])] [] =
      l1 ++ [['a'], transMarker ++ ['X']] ++ l2 := by
  have h := (claim_C7_amended ⟨[⟨[], [['a']]⟩]⟩ [((['a'], []), ['X'])] []).2 (by decide)
  exact ⟨h.1, h.2 ⟨[], [['a']]⟩ (by decide) ['a'] (by decide) ['X'] (by decide) (by decide)⟩

/-- **C8 (counterexample).** The claim states that in dual-page mode the
reflow wraps text into two columns of width `(viewportWidth − 3) / 2` for
every non-degenerate viewport width.  At the non-degenerate content width 15
the column width would be `(15 − 3) / 2 = 6`, but the code clamps the column
to at least 20 (`max(20, (content_w - 3) // 2)`): a ten-glyph CJK paragraph
(display width 20) comes back as a single unbroken line of display width
20 > 6. -/
theorem claim_C8_counterexample :
    (reflow (some ⟨[], [['一', '二', '三', '四', '五', '六', '七', '八', '九', '十']]⟩)
        15 20 1 true false [] []).1 =
      [[['一', '二', '三', '四', '五', '六', '七', '八', '九', '十']]] ∧
    displayWidth ['一', '二', '三', '四', '五', '六', '七', '八', '九', '十'] = 20 ∧
    ¬(displayWidth ['一', '二', '三', '四', '五', '六', '七', '八', '九', '十']
        ≤ (15 - 3) / 2) := by
  refine ⟨by decide, by decide, by decide⟩

/-- **C8 (amended).** In dual-page mode `_reflow` wraps at column width
`max(20, (content_w − 3) / 2)` — the spec's `(viewportWidth − 3) / 2` holds
exactly when the content width is at least 43; below that the column is
clamped to 20.  For a non-degenerate viewport the pages are the fixed-height
chunks of the chapter wrapped at that width. -/
theorem claim_C8_amended (ch : Chapter) (w h lineSpacing : Nat)
    (translateMode : Bool) (cache : Cache) (lang : Str)
    (hw : 10 ≤ w) (hh : 3 ≤ h) :
    (reflow (some ch) w h lineSpacing true translateMode cache lang =
      (let lw := wrapChapter ch (max 20 ((w - 3) / 2)) lineSpacing translateMode cache lang
       let pr := chunkPagesAux (max 3 h) lw.1 lw.2
       if pr.1 = [] then ([["(empty)".data]], [(0, 0)]) else pr)) ∧
    (43 ≤ w → max 20 ((w - 3) / 2) = (w - 3) / 2) := by
  constructor
  · have hd : getContentDimensions w h = (w, h) := by
      simp only [getContentDimensions]
      rw [if_neg (by omega)]
    have hpw : effectivePageWidth true w = max 20 ((w - 3) / 2) := by
      simp [effectivePageWidth]
    simp only [reflow, hd, hpw]
  · intro h43
    have : 20 ≤ (w - 3) / 2 := by omega
    omega

/-- Witness for the amended C8 at a concrete chapter and a 50-column
viewport. -/
theorem claim_C8_amended_witness :
    10 ≤ 50 ∧ 3 ≤ 4 ∧
    ((reflow (some ⟨[], [['字']]⟩) 50 4 1 true false [] [] =
       (let lw := wrapChapter ⟨[], [['字']]⟩ (max 20 ((50 - 3) / 2)) 1 false [] []
        let pr := chunkPagesAux (max 3 4) lw.1 lw.2
        if pr.1 = [] then ([["(empty)".data]], [(0, 0)]) else pr)) ∧
     (43 ≤ 50 → max 20 ((50 - 3) / 2) = (50 - 3) / 2)) :=
  ⟨by decide, by decide,
   claim_C8_amended ⟨[], [['字']]⟩ 50 4 1 false [] [] (by decide) (by decide)⟩

/-- **C9.** The deletion confirmation handler `_on_delete_confirmed` never
performs any action: even for a confirmed deletion (`confirmed = true`) it
neither removes the record, nor refreshes the list, nor notifies — every
statement of its body sits after the early `return` inside the
`if not confirmed:` block and is unreachable.  This contradicts the intended
behavior the claim states (remove, refresh, notify on confirmation). -/
theorem claim_C9_delete_handler_dead_code :
    onDeleteConfirmed true = [] ∧
    DeleteEffect.removeBook ∉ onDeleteConfirmed true ∧
    DeleteEffect.notifyRemoved ∉ onDeleteConfirmed true := by
  refine ⟨rfl, ?_, ?_⟩ <;> simp [onDeleteConfirmed]

end Bookworm
